import Mathlib

/-!
# Pattern-Binding Evaluator: a verification development

The repository's destructuring examples exercise one recurring algorithm:
structural destructuring of array/object shapes with default values, rest
collection, renaming and nesting.  The spec describes it as a
Pattern-Binding Evaluator over a small Value model.  This file embeds that
evaluator and proves the spec's testable properties about it.

The evaluator is instrumented with a log of default-expression
invocations (each default expression carries a numeric identifier `eid`);
the log records, in order, which default expressions were invoked during
one evaluation, so that "invoked exactly once" style properties are
provable statements about the model.
-/

namespace PatternBind

/-- Modelled from the spec: a primitive scalar value (number, string, boolean). -/
inductive Scalar where
  | num : Int → Scalar
  | str : String → Scalar
  | bool : Bool → Scalar
deriving DecidableEq

/-- Modelled from the spec: the runtime Value model.  `unset` is the implicit
"no value was supplied" placeholder; `null` is an explicit deliberate absence,
distinct from `unset`; `seq` is an ordered sequence; `map` is a keyed mapping
with string keys in insertion order. -/
inductive Value where
  | unset : Value
  | null : Value
  | scalar : Scalar → Value
  | seq : List Value → Value
  | map : List (String × Value) → Value

/-- An ordered list of (name, Value) bindings: both the prior-binding
environment a default expression may read, and the evaluator's output. -/
abbrev Bindings := List (String × Value)

/-- Modelled from the spec: a default expression is an opaque callable that,
when invoked, returns a Value and may read the bindings already produced
earlier in the same evaluation.  The numeric `eid` identifies the expression
in the instrumentation log. -/
structure DExpr where
  eid : Nat
  fn : Bindings → Value

mutual

/-- Modelled from the spec: the pattern grammar.  Leaf bindings, renamed
bindings, default-valued wrappers, array patterns (positional slots, skip
slots, optional rest name) and object patterns (keyed slots, optional rest
name), arbitrarily nested. -/
inductive Pattern where
  | binding : String → Pattern
  | renamed : String → String → Pattern
  | defaulted : Pattern → DExpr → Pattern
  | arrayPat : Slots → Option String → Pattern
  | objectPat : OSlots → Option String → Pattern

/-- Positional slots of an array pattern: a slot either skips its position
without binding, or matches a sub-pattern. -/
inductive Slots where
  | nil : Slots
  | skip : Slots → Slots
  | cons : Pattern → Slots → Slots

/-- Keyed slots of an object pattern: each slot pairs a mapping key with the
sub-pattern matched against the value found under that key. -/
inductive OSlots where
  | nil : OSlots
  | cons : String → Pattern → OSlots → OSlots

end

/-- Modelled from the spec: the failure kinds of the evaluator.  The only
failure the embedded fragment can produce is `NotDestructurable` (structural
pattern against a value providing no structure); default expressions are
total in this model, so `DefaultEvaluationError` does not arise. -/
inductive Failure where
  | notDestructurable : Failure
deriving DecidableEq

/-- Key lookup in a mapping's entry list (first occurrence wins). -/
def lookupKey : List (String × Value) → String → Option Value
  | [], _ => none
  | (k, v) :: rest, key => if k = key then some v else lookupKey rest key

/-- Whether a Value is the unset marker. -/
def isUnset : Value → Bool
  | .unset => true
  | _ => false

/-- Number of positions an array pattern's slot list consumes
(skip slots included). -/
def Slots.length : Slots → Nat
  | .nil => 0
  | .skip s => s.length + 1
  | .cons _ s => s.length + 1

/-- The keys claimed by an object pattern's named slots. -/
def OSlots.claimedKeys : OSlots → List String
  | .nil => []
  | .cons k _ s => k :: s.claimedKeys

/-- The entries of a mapping not claimed by any named slot, in original
insertion order: the content of an object rest binding. -/
def restEntries (entries : List (String × Value)) (claimed : List String) :
    List (String × Value) :=
  entries.filter (fun e => !(claimed.contains e.1))

/-- The result of one evaluation: either a full ordered binding list or a
failure, paired with the instrumentation log of invoked default-expression
identifiers (in invocation order). -/
abbrev EvalRes := Except Failure Bindings × List Nat

mutual

/-- Modelled from the spec (§4.1): the Pattern-Binding Evaluator.
`evaluate pattern value prior` walks `pattern` against `value`;
`prior` holds the bindings already produced earlier in the same enclosing
evaluation, readable by default expressions.  A `Defaulted` wrapper replaces
an `unset` value (and only an `unset` value) by its expression's result; leaf
bindings emit one binding; array/object patterns require a sequence/mapping
and otherwise fail with `NotDestructurable`; rest slots collect the unclaimed
remainder into a fresh container. -/
def evaluate : Pattern → Value → Bindings → EvalRes
  | .binding n, v, _ => (.ok [(n, v)], [])
  | .renamed n _, v, _ => (.ok [(n, v)], [])
  | .defaulted p ex, v, prior =>
      match v with
      | .unset =>
          let r := evaluate p (ex.fn prior) prior
          (r.1, ex.eid :: r.2)
      | v' => evaluate p v' prior
  | .arrayPat slots rest, v, prior =>
      match v with
      | .seq xs =>
          let r := evalSlots slots xs prior
          match rest with
          | none => r
          | some rn =>
              match r.1 with
              | .ok b => (.ok (b ++ [(rn, .seq (xs.drop slots.length))]), r.2)
              | .error e => (.error e, r.2)
      | _ => (.error .notDestructurable, [])
  | .objectPat slots rest, v, prior =>
      match v with
      | .map entries =>
          let r := evalOSlots slots entries prior
          match rest with
          | none => r
          | some rn =>
              match r.1 with
              | .ok b =>
                  (.ok (b ++ [(rn, .map (restEntries entries slots.claimedKeys))]), r.2)
              | .error e => (.error e, r.2)
      | _ => (.error .notDestructurable, [])

/-- Positional slot walk of an array pattern: slot `i` receives `xs[i]` when
`i < length xs` and `unset` otherwise; skip slots consume a position without
emitting; later slots see the bindings emitted by earlier slots. -/
def evalSlots : Slots → List Value → Bindings → EvalRes
  | .nil, _, _ => (.ok [], [])
  | .skip s, xs, prior => evalSlots s (xs.drop 1) prior
  | .cons p s, xs, prior =>
      let r := evaluate p (xs.headD .unset) prior
      match r.1 with
      | .error e => (.error e, r.2)
      | .ok b =>
          let r2 := evalSlots s (xs.drop 1) (prior ++ b)
          match r2.1 with
          | .error e => (.error e, r.2 ++ r2.2)
          | .ok b2 => (.ok (b ++ b2), r.2 ++ r2.2)

/-- Keyed slot walk of an object pattern: the slot for key `k` receives the
value found under `k`, or `unset` when the key is absent; later slots see the
bindings emitted by earlier slots. -/
def evalOSlots : OSlots → List (String × Value) → Bindings → EvalRes
  | .nil, _, _ => (.ok [], [])
  | .cons k p s, entries, prior =>
      let r := evaluate p ((lookupKey entries k).getD .unset) prior
      match r.1 with
      | .error e => (.error e, r.2)
      | .ok b =>
          let r2 := evalOSlots s entries (prior ++ b)
          match r2.1 with
          | .error e => (.error e, r.2 ++ r2.2)
          | .ok b2 => (.ok (b ++ b2), r.2 ++ r2.2)

end

/-- Modelled from the spec (§4.2): the Call-Binding Adapter.  Binds one
top-level pattern per declared parameter against one supplied argument per
call, left to right; missing trailing arguments yield `unset`; a later
parameter's default may read earlier parameters' bindings. -/
def bindParams : List Pattern → List Value → Bindings → EvalRes
  | [], _, _ => (.ok [], [])
  | p :: ps, args, prior =>
      let r := evaluate p (args.headD .unset) prior
      match r.1 with
      | .error e => (.error e, r.2)
      | .ok b =>
          let r2 := bindParams ps (args.drop 1) (prior ++ b)
          match r2.1 with
          | .error e => (.error e, r.2 ++ r2.2)
          | .ok b2 => (.ok (b ++ b2), r.2 ++ r2.2)

mutual

/-- All default expressions occurring in a pattern, in declaration order. -/
def Pattern.exprs : Pattern → List DExpr
  | .binding _ => []
  | .renamed _ _ => []
  | .defaulted p ex => ex :: p.exprs
  | .arrayPat s _ => s.exprs
  | .objectPat s _ => s.exprs

/-- All default expressions occurring in an array pattern's slots. -/
def Slots.exprs : Slots → List DExpr
  | .nil => []
  | .skip s => s.exprs
  | .cons p s => p.exprs ++ s.exprs

/-- All default expressions occurring in an object pattern's slots. -/
def OSlots.exprs : OSlots → List DExpr
  | .nil => []
  | .cons _ p s => p.exprs ++ s.exprs

end

/-- The identifiers of all default expressions occurring in a pattern. -/
def patIds (p : Pattern) : List Nat := p.exprs.map DExpr.eid

/-- Whether a pattern is free of structural (array/object) nodes: only leaf
bindings, renamings and default wrappers over them. -/
def structFree : Pattern → Bool
  | .binding _ => true
  | .renamed _ _ => true
  | .defaulted p _ => structFree p
  | .arrayPat _ _ => false
  | .objectPat _ _ => false

mutual

/-- The output names a pattern emits on success, in emission order: one name
per `binding`/`renamed` leaf and one per rest slot. -/
def Pattern.outNames : Pattern → List String
  | .binding n => [n]
  | .renamed n _ => [n]
  | .defaulted p _ => p.outNames
  | .arrayPat s rest => s.outNames ++ rest.toList
  | .objectPat s rest => s.outNames ++ rest.toList

/-- The output names emitted by an array pattern's positional slots. -/
def Slots.outNames : Slots → List String
  | .nil => []
  | .skip s => s.outNames
  | .cons p s => p.outNames ++ s.outNames

/-- The output names emitted by an object pattern's named slots. -/
def OSlots.outNames : OSlots → List String
  | .nil => []
  | .cons _ p s => p.outNames ++ s.outNames

end

/-- Array-pattern slots that bind each listed name at successive positions. -/
def Slots.ofNames : List String → Slots
  | [] => .nil
  | n :: rest => .cons (.binding n) (Slots.ofNames rest)

/-- Array-pattern slots where each position binds a name with a default. -/
def defaultedSlots : List (String × DExpr) → Slots
  | [] => .nil
  | (n, ex) :: rest => .cons (.defaulted (.binding n) ex) (defaultedSlots rest)

/-- Object-pattern slots built from a (key, sub-pattern) association list. -/
def OSlots.ofList : List (String × Pattern) → OSlots
  | [] => .nil
  | (k, p) :: rest => .cons k p (OSlots.ofList rest)

/-- Formulated from the spec's slot rule: positional binding of the listed
names, slot `i` receiving `v[i]` when `i < length v` and `unset` otherwise. -/
def positionalBind (names : List String) (xs : List Value) : Bindings :=
  names.mapIdx (fun i n => (n, xs.getD i Value.unset))

/-- Formulated from the spec's laziness rule: the default-expression
identifiers an evaluation of defaulted leaf slots must invoke, in slot order:
exactly the slots whose incoming value is the unset marker. -/
def invokedIds : List (String × DExpr) → List Value → List Nat
  | [], _ => []
  | (_, ex) :: rest, xs =>
      (if isUnset (xs.headD .unset) then [ex.eid] else []) ++
        invokedIds rest (xs.drop 1)

/-- A value that provides no structure: the unset marker, the null marker, or
a scalar. -/
def Structureless (v : Value) : Prop :=
  v = .unset ∨ v = .null ∨ ∃ s, v = .scalar s

/-- All default expressions of a pattern ignore the prior-binding environment
(no interdependent default expressions). -/
def ConstPat (p : Pattern) : Prop :=
  ∀ ex ∈ p.exprs, ∀ b1 b2 : Bindings, ex.fn b1 = ex.fn b2

/-- The per-slot result of an object slot evaluated independently (against
the value found under its key, with an empty prior environment). -/
def slotResult (entries : List (String × Value)) (q : String × Pattern) :
    Except Failure Bindings :=
  (evaluate q.2 ((lookupKey entries q.1).getD .unset) []).1

/-- Joins a list of per-slot results: any failure aborts, otherwise the
binding lists are concatenated in order. -/
def joinResults : List (Except Failure Bindings) → Except Failure Bindings
  | [] => .ok []
  | r :: rest =>
      match r with
      | .error e => .error e
      | .ok b =>
          match joinResults rest with
          | .ok b2 => .ok (b ++ b2)
          | .error e => .error e

mutual

/-- Patterns guaranteed to evaluate successfully against the unset marker:
leaves; default wrappers over structure-free patterns; and the spec's
Call-Binding Adapter convenience shape, a default wrapper around an object
pattern whose expression returns an empty mapping and whose slots are in turn
safe against unset. -/
inductive UnsetSafe : Pattern → Prop where
  | binding (n : String) : UnsetSafe (.binding n)
  | renamed (n k : String) : UnsetSafe (.renamed n k)
  | defaultedFree (p : Pattern) (ex : DExpr) :
      structFree p = true → UnsetSafe (.defaulted p ex)
  | defaultedObj (slots : OSlots) (rest : Option String) (ex : DExpr) :
      (∀ b : Bindings, ex.fn b = .map []) → OSlotsSafe slots →
      UnsetSafe (.defaulted (.objectPat slots rest) ex)

/-- Object slots all of whose sub-patterns are safe against the unset
marker. -/
inductive OSlotsSafe : OSlots → Prop where
  | nil : OSlotsSafe .nil
  | cons (k : String) (p : Pattern) (s : OSlots) :
      UnsetSafe p → OSlotsSafe s → OSlotsSafe (.cons k p s)

end

/-! ## Shape lemmas for the evaluator -/

theorem evaluate_binding (n : String) (v : Value) (prior : Bindings) :
    evaluate (.binding n) v prior = (.ok [(n, v)], []) := rfl

theorem evaluate_renamed (n k : String) (v : Value) (prior : Bindings) :
    evaluate (.renamed n k) v prior = (.ok [(n, v)], []) := rfl

theorem evaluate_defaulted_unset (p : Pattern) (ex : DExpr) (prior : Bindings) :
    evaluate (.defaulted p ex) .unset prior =
      ((evaluate p (ex.fn prior) prior).1, ex.eid :: (evaluate p (ex.fn prior) prior).2) := rfl

theorem evaluate_defaulted_null (p : Pattern) (ex : DExpr) (prior : Bindings) :
    evaluate (.defaulted p ex) .null prior = evaluate p .null prior := rfl

theorem evaluate_defaulted_scalar (p : Pattern) (ex : DExpr) (s : Scalar) (prior : Bindings) :
    evaluate (.defaulted p ex) (.scalar s) prior = evaluate p (.scalar s) prior := rfl

theorem evaluate_defaulted_seq (p : Pattern) (ex : DExpr) (xs : List Value) (prior : Bindings) :
    evaluate (.defaulted p ex) (.seq xs) prior = evaluate p (.seq xs) prior := rfl

theorem evaluate_defaulted_map (p : Pattern) (ex : DExpr) (es : List (String × Value))
    (prior : Bindings) :
    evaluate (.defaulted p ex) (.map es) prior = evaluate p (.map es) prior := rfl

theorem evaluate_defaulted_not_unset (p : Pattern) (ex : DExpr) (v : Value)
    (prior : Bindings) (h : isUnset v = false) :
    evaluate (.defaulted p ex) v prior = evaluate p v prior := by
  cases v <;> first | rfl | simp [isUnset] at h

theorem evaluate_arrayPat_none (s : Slots) (xs : List Value) (prior : Bindings) :
    evaluate (.arrayPat s none) (.seq xs) prior = evalSlots s xs prior := rfl

theorem evaluate_arrayPat_some (s : Slots) (rn : String) (xs : List Value)
    (prior : Bindings) :
    evaluate (.arrayPat s (some rn)) (.seq xs) prior =
      (match (evalSlots s xs prior).1 with
        | .ok b => .ok (b ++ [(rn, .seq (xs.drop s.length))])
        | .error e => .error e,
       (evalSlots s xs prior).2) := by
  simp only [evaluate]
  cases (evalSlots s xs prior).1 <;> rfl

theorem evaluate_arrayPat_some_ok (s : Slots) (rn : String) (xs : List Value)
    (prior : Bindings) (b : Bindings) (h : (evalSlots s xs prior).1 = .ok b) :
    evaluate (.arrayPat s (some rn)) (.seq xs) prior =
      (.ok (b ++ [(rn, .seq (xs.drop s.length))]), (evalSlots s xs prior).2) := by
  rw [evaluate_arrayPat_some, h]

theorem evaluate_arrayPat_some_err (s : Slots) (rn : String) (xs : List Value)
    (prior : Bindings) (e : Failure) (h : (evalSlots s xs prior).1 = .error e) :
    evaluate (.arrayPat s (some rn)) (.seq xs) prior =
      (.error e, (evalSlots s xs prior).2) := by
  rw [evaluate_arrayPat_some, h]

theorem evaluate_arrayPat_log (s : Slots) (rest : Option String) (xs : List Value)
    (prior : Bindings) :
    (evaluate (.arrayPat s rest) (.seq xs) prior).2 = (evalSlots s xs prior).2 := by
  cases rest with
  | none => rfl
  | some rn => rw [evaluate_arrayPat_some]

theorem evaluate_objectPat_none (s : OSlots) (es : List (String × Value)) (prior : Bindings) :
    evaluate (.objectPat s none) (.map es) prior = evalOSlots s es prior := rfl

theorem evaluate_objectPat_some (s : OSlots) (rn : String) (es : List (String × Value))
    (prior : Bindings) :
    evaluate (.objectPat s (some rn)) (.map es) prior =
      (match (evalOSlots s es prior).1 with
        | .ok b => .ok (b ++ [(rn, .map (restEntries es s.claimedKeys))])
        | .error e => .error e,
       (evalOSlots s es prior).2) := by
  simp only [evaluate]
  cases (evalOSlots s es prior).1 <;> rfl

theorem evaluate_objectPat_some_ok (s : OSlots) (rn : String) (es : List (String × Value))
    (prior : Bindings) (b : Bindings) (h : (evalOSlots s es prior).1 = .ok b) :
    evaluate (.objectPat s (some rn)) (.map es) prior =
      (.ok (b ++ [(rn, .map (restEntries es s.claimedKeys))]), (evalOSlots s es prior).2) := by
  rw [evaluate_objectPat_some, h]

theorem evaluate_objectPat_some_err (s : OSlots) (rn : String) (es : List (String × Value))
    (prior : Bindings) (e : Failure) (h : (evalOSlots s es prior).1 = .error e) :
    evaluate (.objectPat s (some rn)) (.map es) prior =
      (.error e, (evalOSlots s es prior).2) := by
  rw [evaluate_objectPat_some, h]

theorem evaluate_objectPat_log (s : OSlots) (rest : Option String)
    (es : List (String × Value)) (prior : Bindings) :
    (evaluate (.objectPat s rest) (.map es) prior).2 = (evalOSlots s es prior).2 := by
  cases rest with
  | none => rfl
  | some rn => rw [evaluate_objectPat_some]

theorem evaluate_arrayPat_unset (s : Slots) (rest : Option String) (prior : Bindings) :
    evaluate (.arrayPat s rest) .unset prior = (.error .notDestructurable, []) := rfl

theorem evaluate_arrayPat_null (s : Slots) (rest : Option String) (prior : Bindings) :
    evaluate (.arrayPat s rest) .null prior = (.error .notDestructurable, []) := rfl

theorem evaluate_arrayPat_scalar (s : Slots) (rest : Option String) (sc : Scalar)
    (prior : Bindings) :
    evaluate (.arrayPat s rest) (.scalar sc) prior = (.error .notDestructurable, []) := rfl

theorem evaluate_arrayPat_map (s : Slots) (rest : Option String)
    (es : List (String × Value)) (prior : Bindings) :
    evaluate (.arrayPat s rest) (.map es) prior = (.error .notDestructurable, []) := rfl

theorem evaluate_objectPat_unset (s : OSlots) (rest : Option String) (prior : Bindings) :
    evaluate (.objectPat s rest) .unset prior = (.error .notDestructurable, []) := rfl

theorem evaluate_objectPat_null (s : OSlots) (rest : Option String) (prior : Bindings) :
    evaluate (.objectPat s rest) .null prior = (.error .notDestructurable, []) := rfl

theorem evaluate_objectPat_scalar (s : OSlots) (rest : Option String) (sc : Scalar)
    (prior : Bindings) :
    evaluate (.objectPat s rest) (.scalar sc) prior = (.error .notDestructurable, []) := rfl

theorem evaluate_objectPat_seq (s : OSlots) (rest : Option String) (xs : List Value)
    (prior : Bindings) :
    evaluate (.objectPat s rest) (.seq xs) prior = (.error .notDestructurable, []) := rfl

theorem evalSlots_nil (xs : List Value) (prior : Bindings) :
    evalSlots .nil xs prior = (.ok [], []) := rfl

theorem evalSlots_skip (s : Slots) (xs : List Value) (prior : Bindings) :
    evalSlots (.skip s) xs prior = evalSlots s (xs.drop 1) prior := rfl

theorem evalSlots_cons_err (p : Pattern) (s : Slots) (xs : List Value) (prior : Bindings)
    (e : Failure) (h : (evaluate p (xs.headD .unset) prior).1 = .error e) :
    evalSlots (.cons p s) xs prior = (.error e, (evaluate p (xs.headD .unset) prior).2) := by
  simp only [evalSlots, h]

theorem evalSlots_cons_ok_ok (p : Pattern) (s : Slots) (xs : List Value) (prior : Bindings)
    (b b2 : Bindings) (h1 : (evaluate p (xs.headD .unset) prior).1 = .ok b)
    (h2 : (evalSlots s (xs.drop 1) (prior ++ b)).1 = .ok b2) :
    evalSlots (.cons p s) xs prior =
      (.ok (b ++ b2),
       (evaluate p (xs.headD .unset) prior).2 ++ (evalSlots s (xs.drop 1) (prior ++ b)).2) := by
  simp only [evalSlots, h1, h2]

theorem evalSlots_cons_ok_err (p : Pattern) (s : Slots) (xs : List Value) (prior : Bindings)
    (b : Bindings) (e : Failure) (h1 : (evaluate p (xs.headD .unset) prior).1 = .ok b)
    (h2 : (evalSlots s (xs.drop 1) (prior ++ b)).1 = .error e) :
    evalSlots (.cons p s) xs prior =
      (.error e,
       (evaluate p (xs.headD .unset) prior).2 ++ (evalSlots s (xs.drop 1) (prior ++ b)).2) := by
  simp only [evalSlots, h1, h2]

theorem evalOSlots_nil (es : List (String × Value)) (prior : Bindings) :
    evalOSlots .nil es prior = (.ok [], []) := rfl

theorem evalOSlots_cons_err (k : String) (p : Pattern) (s : OSlots)
    (es : List (String × Value)) (prior : Bindings) (e : Failure)
    (h : (evaluate p ((lookupKey es k).getD .unset) prior).1 = .error e) :
    evalOSlots (.cons k p s) es prior =
      (.error e, (evaluate p ((lookupKey es k).getD .unset) prior).2) := by
  simp only [evalOSlots, h]

theorem evalOSlots_cons_ok_ok (k : String) (p : Pattern) (s : OSlots)
    (es : List (String × Value)) (prior : Bindings) (b b2 : Bindings)
    (h1 : (evaluate p ((lookupKey es k).getD .unset) prior).1 = .ok b)
    (h2 : (evalOSlots s es (prior ++ b)).1 = .ok b2) :
    evalOSlots (.cons k p s) es prior =
      (.ok (b ++ b2),
       (evaluate p ((lookupKey es k).getD .unset) prior).2 ++ (evalOSlots s es (prior ++ b)).2) := by
  simp only [evalOSlots, h1, h2]

theorem evalOSlots_cons_ok_err (k : String) (p : Pattern) (s : OSlots)
    (es : List (String × Value)) (prior : Bindings) (b : Bindings) (e : Failure)
    (h1 : (evaluate p ((lookupKey es k).getD .unset) prior).1 = .ok b)
    (h2 : (evalOSlots s es (prior ++ b)).1 = .error e) :
    evalOSlots (.cons k p s) es prior =
      (.error e,
       (evaluate p ((lookupKey es k).getD .unset) prior).2 ++ (evalOSlots s es (prior ++ b)).2) := by
  simp only [evalOSlots, h1, h2]

theorem bindParams_nil (args : List Value) (prior : Bindings) :
    bindParams [] args prior = (.ok [], []) := rfl

theorem bindParams_cons_err (p : Pattern) (ps : List Pattern) (args : List Value)
    (prior : Bindings) (e : Failure)
    (h : (evaluate p (args.headD .unset) prior).1 = .error e) :
    bindParams (p :: ps) args prior = (.error e, (evaluate p (args.headD .unset) prior).2) := by
  simp only [bindParams, h]

theorem bindParams_cons_ok_ok (p : Pattern) (ps : List Pattern) (args : List Value)
    (prior : Bindings) (b b2 : Bindings)
    (h1 : (evaluate p (args.headD .unset) prior).1 = .ok b)
    (h2 : (bindParams ps (args.drop 1) (prior ++ b)).1 = .ok b2) :
    bindParams (p :: ps) args prior =
      (.ok (b ++ b2),
       (evaluate p (args.headD .unset) prior).2 ++ (bindParams ps (args.drop 1) (prior ++ b)).2) := by
  simp only [bindParams, h1, h2]

theorem bindParams_cons_ok_err (p : Pattern) (ps : List Pattern) (args : List Value)
    (prior : Bindings) (b : Bindings) (e : Failure)
    (h1 : (evaluate p (args.headD .unset) prior).1 = .ok b)
    (h2 : (bindParams ps (args.drop 1) (prior ++ b)).1 = .error e) :
    bindParams (p :: ps) args prior =
      (.error e,
       (evaluate p (args.headD .unset) prior).2 ++ (bindParams ps (args.drop 1) (prior ++ b)).2) := by
  simp only [bindParams, h1, h2]

/-! ## The invocation log only mentions the pattern's own expressions -/

mutual

theorem log_sub_pat (p : Pattern) (v : Value) (prior : Bindings) :
    (evaluate p v prior).2 ⊆ p.exprs.map DExpr.eid := by
  cases p with
  | binding n => simp [evaluate_binding]
  | renamed n k => simp [evaluate_renamed]
  | defaulted q ex =>
      have hq : q.exprs.map DExpr.eid ⊆ (Pattern.defaulted q ex).exprs.map DExpr.eid := by
        simp [Pattern.exprs]
      cases v with
      | unset =>
          rw [evaluate_defaulted_unset]
          intro i hi
          rcases List.mem_cons.1 hi with h | h
          · simp [Pattern.exprs, h]
          · exact hq (log_sub_pat q (ex.fn prior) prior h)
      | null =>
          rw [evaluate_defaulted_null]
          exact fun i hi => hq (log_sub_pat q .null prior hi)
      | scalar sc =>
          rw [evaluate_defaulted_scalar]
          exact fun i hi => hq (log_sub_pat q (.scalar sc) prior hi)
      | seq xs =>
          rw [evaluate_defaulted_seq]
          exact fun i hi => hq (log_sub_pat q (.seq xs) prior hi)
      | map es =>
          rw [evaluate_defaulted_map]
          exact fun i hi => hq (log_sub_pat q (.map es) prior hi)
  | arrayPat s rest =>
      cases v with
      | seq xs =>
          intro i hi
          rw [evaluate_arrayPat_log] at hi
          simpa [Pattern.exprs] using log_sub_slots s xs prior hi
      | unset => simp [evaluate_arrayPat_unset]
      | null => simp [evaluate_arrayPat_null]
      | scalar sc => simp [evaluate_arrayPat_scalar]
      | map es => simp [evaluate_arrayPat_map]
  | objectPat s rest =>
      cases v with
      | map es =>
          intro i hi
          rw [evaluate_objectPat_log] at hi
          simpa [Pattern.exprs] using log_sub_oslots s es prior hi
      | unset => simp [evaluate_objectPat_unset]
      | null => simp [evaluate_objectPat_null]
      | scalar sc => simp [evaluate_objectPat_scalar]
      | seq xs => simp [evaluate_objectPat_seq]

theorem log_sub_slots (s : Slots) (xs : List Value) (prior : Bindings) :
    (evalSlots s xs prior).2 ⊆ s.exprs.map DExpr.eid := by
  cases s with
  | nil => simp [evalSlots_nil]
  | skip s2 =>
      rw [evalSlots_skip]
      intro i hi
      simpa [Slots.exprs] using log_sub_slots s2 (xs.drop 1) prior hi
  | cons p s2 =>
      intro i hi
      simp only [Slots.exprs, List.map_append, List.mem_append]
      cases h1 : (evaluate p (xs.headD .unset) prior).1 with
      | error e =>
          rw [evalSlots_cons_err p s2 xs prior e h1] at hi
          exact Or.inl (log_sub_pat p (xs.headD .unset) prior hi)
      | ok b =>
          cases h2 : (evalSlots s2 (xs.drop 1) (prior ++ b)).1 with
          | error e =>
              rw [evalSlots_cons_ok_err p s2 xs prior b e h1 h2] at hi
              rcases List.mem_append.1 hi with h | h
              · exact Or.inl (log_sub_pat p (xs.headD .unset) prior h)
              · exact Or.inr (log_sub_slots s2 (xs.drop 1) (prior ++ b) h)
          | ok b2 =>
              rw [evalSlots_cons_ok_ok p s2 xs prior b b2 h1 h2] at hi
              rcases List.mem_append.1 hi with h | h
              · exact Or.inl (log_sub_pat p (xs.headD .unset) prior h)
              · exact Or.inr (log_sub_slots s2 (xs.drop 1) (prior ++ b) h)

theorem log_sub_oslots (s : OSlots) (es : List (String × Value)) (prior : Bindings) :
    (evalOSlots s es prior).2 ⊆ s.exprs.map DExpr.eid := by
  cases s with
  | nil => simp [evalOSlots_nil]
  | cons k p s2 =>
      intro i hi
      simp only [OSlots.exprs, List.map_append, List.mem_append]
      cases h1 : (evaluate p ((lookupKey es k).getD .unset) prior).1 with
      | error e =>
          rw [evalOSlots_cons_err k p s2 es prior e h1] at hi
          exact Or.inl (log_sub_pat p ((lookupKey es k).getD .unset) prior hi)
      | ok b =>
          cases h2 : (evalOSlots s2 es (prior ++ b)).1 with
          | error e =>
              rw [evalOSlots_cons_ok_err k p s2 es prior b e h1 h2] at hi
              rcases List.mem_append.1 hi with h | h
              · exact Or.inl (log_sub_pat p ((lookupKey es k).getD .unset) prior h)
              · exact Or.inr (log_sub_oslots s2 es (prior ++ b) h)
          | ok b2 =>
              rw [evalOSlots_cons_ok_ok k p s2 es prior b b2 h1 h2] at hi
              rcases List.mem_append.1 hi with h | h
              · exact Or.inl (log_sub_pat p ((lookupKey es k).getD .unset) prior h)
              · exact Or.inr (log_sub_oslots s2 es (prior ++ b) h)

end

/-! ## Claim C1 -/

/-- C1: for every inner pattern `p` and default expression `ex`, evaluating
`Defaulted(p, ex)` against `Unset` invokes `ex` exactly once and continues
matching with the expression's result; against `Null` or any Scalar
(including the empty string, 0 and false) the expression is never invoked
and the supplied value is matched unchanged.  Invocation counts are read off
the instrumentation log, assuming `ex`'s identifier does not also occur
inside `p`. -/
theorem defaulted_default_rule (p : Pattern) (ex : DExpr) (prior : Bindings) :
    evaluate (.defaulted p ex) .unset prior =
      ((evaluate p (ex.fn prior) prior).1, ex.eid :: (evaluate p (ex.fn prior) prior).2)
    ∧ evaluate (.defaulted p ex) .null prior = evaluate p .null prior
    ∧ (∀ sc : Scalar,
        evaluate (.defaulted p ex) (.scalar sc) prior = evaluate p (.scalar sc) prior)
    ∧ (ex.eid ∉ patIds p →
        (evaluate (.defaulted p ex) .unset prior).2.count ex.eid = 1
        ∧ (evaluate (.defaulted p ex) .null prior).2.count ex.eid = 0
        ∧ ∀ sc : Scalar,
            (evaluate (.defaulted p ex) (.scalar sc) prior).2.count ex.eid = 0) := by
  refine ⟨evaluate_defaulted_unset p ex prior, evaluate_defaulted_null p ex prior,
    fun sc => evaluate_defaulted_scalar p ex sc prior, fun hfresh => ?_⟩
  have hlog : ∀ v : Value, ex.eid ∉ (evaluate p v prior).2 := fun v hv =>
    hfresh (log_sub_pat p v prior hv)
  refine ⟨?_, ?_, fun sc => ?_⟩
  · rw [evaluate_defaulted_unset]
    simp [List.count_eq_zero.2 (hlog (ex.fn prior))]
  · rw [evaluate_defaulted_null]
    exact List.count_eq_zero.2 (hlog .null)
  · rw [evaluate_defaulted_scalar]
    exact List.count_eq_zero.2 (hlog (.scalar sc))

/-- Witness for C1, at the repository's default-parameter example
`test(a = "default")`: called with no value the default is used and invoked
exactly once; called with null, the empty string or 0 it is not invoked. -/
theorem defaulted_default_rule_witness :
    evaluate (.defaulted (.binding "a") ⟨7, fun _ => .scalar (.str "default")⟩) .unset []
      = (.ok [("a", .scalar (.str "default"))], [7])
    ∧ (evaluate (.defaulted (.binding "a") ⟨7, fun _ => .scalar (.str "default")⟩)
        .unset []).2.count 7 = 1
    ∧ (evaluate (.defaulted (.binding "a") ⟨7, fun _ => .scalar (.str "default")⟩)
        .null []).2.count 7 = 0
    ∧ (evaluate (.defaulted (.binding "a") ⟨7, fun _ => .scalar (.str "default")⟩)
        (.scalar (.str "")) []).2.count 7 = 0
    ∧ (evaluate (.defaulted (.binding "a") ⟨7, fun _ => .scalar (.str "default")⟩)
        (.scalar (.num 0)) []).2.count 7 = 0 := by
  have h := defaulted_default_rule (.binding "a") ⟨7, fun _ => .scalar (.str "default")⟩ []
  have hfresh : (7 : Nat) ∉ patIds (.binding "a") := by simp [patIds, Pattern.exprs]
  exact ⟨rfl, (h.2.2.2 hfresh).1, (h.2.2.2 hfresh).2.1, (h.2.2.2 hfresh).2.2 (.str ""),
    (h.2.2.2 hfresh).2.2 (.num 0)⟩

/-! ## Claim C2 -/

/-- A pattern free of structural nodes evaluates successfully against every
value, with the unset and null markers included. -/
theorem structFree_ok (p : Pattern) (h : structFree p = true) (v : Value) (prior : Bindings) :
    ∃ b, (evaluate p v prior).1 = .ok b := by
  cases p with
  | binding n => exact ⟨[(n, v)], rfl⟩
  | renamed n k => exact ⟨[(n, v)], rfl⟩
  | defaulted q ex =>
      have hq : structFree q = true := h
      cases v with
      | unset =>
          rw [evaluate_defaulted_unset]
          exact structFree_ok q hq (ex.fn prior) prior
      | null =>
          rw [evaluate_defaulted_null]
          exact structFree_ok q hq .null prior
      | scalar sc =>
          rw [evaluate_defaulted_scalar]
          exact structFree_ok q hq (.scalar sc) prior
      | seq xs =>
          rw [evaluate_defaulted_seq]
          exact structFree_ok q hq (.seq xs) prior
      | map es =>
          rw [evaluate_defaulted_map]
          exact structFree_ok q hq (.map es) prior
  | arrayPat s rest => simp [structFree] at h
  | objectPat s rest => simp [structFree] at h

/-- C2: `NotDestructurable` is raised exactly when a structural pattern
(array or object) meets a value providing no structure (the unset marker, the
null marker, or a scalar); a bare `Binding` (or `Renamed`) leaf never fails,
accepting every value, null and unset included; and a pattern containing no
structural node never fails at all, so the failure arises only from
structural access. -/
theorem notDestructurable_structural_rule :
    (∀ (n : String) (v : Value) (prior : Bindings),
        (evaluate (.binding n) v prior).1 = .ok [(n, v)])
    ∧ (∀ (n k : String) (v : Value) (prior : Bindings),
        (evaluate (.renamed n k) v prior).1 = .ok [(n, v)])
    ∧ (∀ (s : Slots) (rest : Option String) (v : Value) (prior : Bindings),
        Structureless v →
        evaluate (.arrayPat s rest) v prior = (.error .notDestructurable, []))
    ∧ (∀ (s : OSlots) (rest : Option String) (v : Value) (prior : Bindings),
        Structureless v →
        evaluate (.objectPat s rest) v prior = (.error .notDestructurable, []))
    ∧ (∀ (p : Pattern) (v : Value) (prior : Bindings), structFree p = true →
        ∃ b, (evaluate p v prior).1 = .ok b) := by
  refine ⟨fun n v prior => rfl, fun n k v prior => rfl, ?_, ?_,
    fun p v prior h => structFree_ok p h v prior⟩
  · rintro s rest v prior (rfl | rfl | ⟨sc, rfl⟩)
    · exact evaluate_arrayPat_unset s rest prior
    · exact evaluate_arrayPat_null s rest prior
    · exact evaluate_arrayPat_scalar s rest sc prior
  · rintro s rest v prior (rfl | rfl | ⟨sc, rfl⟩)
    · exact evaluate_objectPat_unset s rest prior
    · exact evaluate_objectPat_null s rest prior
    · exact evaluate_objectPat_scalar s rest sc prior

/-- Witness for C2, at the spec's example: `ArrayPattern([Binding("x")])`
against `Unset` and against `Null` raises `NotDestructurable`, while the bare
leaf `Binding("x")` accepts both; guarding the same array pattern with
`Defaulted(_, () => [])` instead yields `x = Unset`. -/
theorem notDestructurable_structural_rule_witness :
    evaluate (.arrayPat (.cons (.binding "x") .nil) none) .unset []
      = (.error .notDestructurable, [])
    ∧ evaluate (.arrayPat (.cons (.binding "x") .nil) none) .null []
      = (.error .notDestructurable, [])
    ∧ (evaluate (.binding "x") .null []).1 = .ok [("x", .null)]
    ∧ (evaluate (.binding "x") .unset []).1 = .ok [("x", .unset)]
    ∧ evaluate (.defaulted (.arrayPat (.cons (.binding "x") .nil) none)
        ⟨3, fun _ => .seq []⟩) .unset []
      = (.ok [("x", .unset)], [3]) := by
  have h := notDestructurable_structural_rule
  exact ⟨h.2.2.1 (.cons (.binding "x") .nil) none .unset [] (Or.inl rfl),
    h.2.2.1 (.cons (.binding "x") .nil) none .null [] (Or.inr (Or.inl rfl)),
    h.2.1 "x" "x" .null [], h.1 "x" .unset [], rfl⟩

/-! ## Claim C3 -/

mutual

/-- A pattern safe against the unset marker evaluates successfully on it. -/
theorem unsetSafe_ok (p : Pattern) (h : UnsetSafe p) (prior : Bindings) :
    ∃ b, (evaluate p .unset prior).1 = .ok b := by
  cases h with
  | binding n => exact ⟨[(n, .unset)], rfl⟩
  | renamed n k => exact ⟨[(n, .unset)], rfl⟩
  | defaultedFree q ex hfree =>
      rw [evaluate_defaulted_unset]
      exact structFree_ok _ hfree _ prior
  | defaultedObj slots rest ex hEmpty hslots =>
      rw [evaluate_defaulted_unset, hEmpty prior]
      obtain ⟨b, hb⟩ := oslotsSafe_ok slots hslots prior
      cases rest with
      | none => exact ⟨b, hb⟩
      | some rn =>
          rw [evaluate_objectPat_some_ok slots rn [] prior b hb]
          exact ⟨_, rfl⟩

/-- Safe object slots evaluate successfully against the empty mapping (each
slot receives the unset marker). -/
theorem oslotsSafe_ok (s : OSlots) (h : OSlotsSafe s) (prior : Bindings) :
    ∃ b, (evalOSlots s [] prior).1 = .ok b := by
  cases h with
  | nil => exact ⟨[], rfl⟩
  | cons k p s2 hp hs =>
      obtain ⟨b, hb⟩ := unsetSafe_ok p hp prior
      obtain ⟨b2, hb2⟩ := oslotsSafe_ok s2 hs (prior ++ b)
      rw [evalOSlots_cons_ok_ok k p s2 [] prior b b2 hb hb2]
      exact ⟨_, rfl⟩

end

/-- An object pattern whose slots are safe against unset evaluates
successfully against the empty mapping, rest slot included. -/
theorem objectPat_empty_ok (slots : OSlots) (rest : Option String) (prior : Bindings)
    (h : OSlotsSafe slots) :
    ∃ b, (evaluate (.objectPat slots rest) (.map []) prior).1 = .ok b := by
  obtain ⟨b, hb⟩ := oslotsSafe_ok slots h prior
  cases rest with
  | none => exact ⟨b, hb⟩
  | some rn =>
      rw [evaluate_objectPat_some_ok slots rn [] prior b hb]
      exact ⟨_, rfl⟩

/-- C3: in the Call-Binding Adapter, a parameter whose pattern is
`Defaulted(ObjectPattern(...), ex)` with `ex` returning an empty mapping
never raises `NotDestructurable` when the call supplies no argument at that
position: the unset argument triggers the default before the object pattern
requires structure, so the call behaves exactly like matching the object
pattern against the empty mapping, and the inner slot defaults then apply. -/
theorem adapter_empty_object_default_safe (slots : OSlots) (rest : Option String)
    (ex : DExpr) (prior : Bindings)
    (hEmpty : ∀ b : Bindings, ex.fn b = .map [])
    (hSafe : OSlotsSafe slots) :
    (∀ b, (evaluate (.objectPat slots rest) (.map []) prior).1 = .ok b →
      (bindParams [.defaulted (.objectPat slots rest) ex] [] prior).1 = .ok b)
    ∧ ∃ b, (bindParams [.defaulted (.objectPat slots rest) ex] [] prior).1 = .ok b := by
  have key : ∀ b, (evaluate (.objectPat slots rest) (.map []) prior).1 = .ok b →
      (bindParams [.defaulted (.objectPat slots rest) ex] [] prior).1 = .ok b := by
    intro b hb
    have hq : (evaluate (.defaulted (.objectPat slots rest) ex) Value.unset prior).1
        = .ok b := by
      rw [evaluate_defaulted_unset, hEmpty prior]
      exact hb
    rw [bindParams_cons_ok_ok (.defaulted (.objectPat slots rest) ex) [] [] prior b [] hq rfl]
    simp
  obtain ⟨b, hb⟩ := objectPat_empty_ok slots rest prior hSafe
  exact ⟨key, b, key b hb⟩

/-- Witness for C3, at the repository's `safeGreet({ name = "Guest" } = {})`
example: calling with no argument succeeds and binds `name` to the inner
default. -/
theorem adapter_empty_object_default_safe_witness :
    (∃ b, (bindParams
      [.defaulted
        (.objectPat (.cons "name" (.defaulted (.binding "name")
          ⟨1, fun _ => .scalar (.str "Guest")⟩) .nil) none)
        ⟨0, fun _ => .map []⟩] [] []).1 = .ok b)
    ∧ bindParams
      [.defaulted
        (.objectPat (.cons "name" (.defaulted (.binding "name")
          ⟨1, fun _ => .scalar (.str "Guest")⟩) .nil) none)
        ⟨0, fun _ => .map []⟩] [] []
      = (.ok [("name", .scalar (.str "Guest"))], [0, 1]) := by
  refine ⟨(adapter_empty_object_default_safe
    (.cons "name" (.defaulted (.binding "name") ⟨1, fun _ => .scalar (.str "Guest")⟩) .nil)
    none ⟨0, fun _ => .map []⟩ [] (fun b => rfl)
    (OSlotsSafe.cons "name" _ .nil (UnsetSafe.defaultedFree _ _ rfl) OSlotsSafe.nil)).2, rfl⟩

/-! ## Claim C4 -/

/-- A one-slot object pattern delegates to its slot's sub-pattern, fed the
value found under the slot's key (or unset when absent). -/
theorem evalOSlots_single (k : String) (p : Pattern) (entries : List (String × Value))
    (prior : Bindings) :
    evalOSlots (.cons k p .nil) entries prior
      = evaluate p ((lookupKey entries k).getD .unset) prior := by
  have heta : evaluate p ((lookupKey entries k).getD .unset) prior
      = ((evaluate p ((lookupKey entries k).getD .unset) prior).1,
         (evaluate p ((lookupKey entries k).getD .unset) prior).2) := rfl
  cases h1 : (evaluate p ((lookupKey entries k).getD .unset) prior).1 with
  | error e =>
      rw [evalOSlots_cons_err k p .nil entries prior e h1, heta, h1]
  | ok b =>
      rw [evalOSlots_cons_ok_ok k p .nil entries prior b [] h1 rfl]
      simp only [evalOSlots_nil, List.append_nil]
      rw [heta, h1]

/-- A one-slot array pattern slot list delegates to its slot's sub-pattern,
fed the sequence's first element (or unset when the sequence is empty). -/
theorem evalSlots_single (p : Pattern) (xs : List Value) (prior : Bindings) :
    evalSlots (.cons p .nil) xs prior = evaluate p (xs.headD .unset) prior := by
  have heta : evaluate p (xs.headD .unset) prior
      = ((evaluate p (xs.headD .unset) prior).1, (evaluate p (xs.headD .unset) prior).2) := rfl
  cases h1 : (evaluate p (xs.headD .unset) prior).1 with
  | error e =>
      rw [evalSlots_cons_err p .nil xs prior e h1, heta, h1]
  | ok b =>
      rw [evalSlots_cons_ok_ok p .nil xs prior b [] h1 rfl]
      simp only [evalSlots_nil, List.append_nil]
      rw [heta, h1]

/-- Appending unset markers does not change the first element seen by a
slot. -/
theorem headD_append_replicate_unset (xs : List Value) (n : Nat) :
    (xs ++ List.replicate n Value.unset).headD .unset = xs.headD .unset := by
  cases xs <;> cases n <;> simp [List.replicate]

/-- Dropping one position from a sequence padded with unset markers leaves a
sequence padded with unset markers. -/
theorem drop_one_append_replicate (xs : List Value) (n : Nat) :
    ∃ m, (xs ++ List.replicate n Value.unset).drop 1
      = xs.drop 1 ++ List.replicate m Value.unset := by
  cases xs with
  | nil =>
      cases n with
      | zero => exact ⟨0, rfl⟩
      | succ m => exact ⟨m, by simp [List.replicate]⟩
  | cons x xs2 => exact ⟨n, by simp⟩

/-- Padding the matched sequence with explicit unset markers does not change
the slot walk: a missing index and an explicitly-unset element behave
identically. -/
theorem evalSlots_pad (s : Slots) (xs : List Value) (n : Nat) (prior : Bindings) :
    evalSlots s (xs ++ List.replicate n Value.unset) prior = evalSlots s xs prior := by
  cases s with
  | nil => rfl
  | skip s2 =>
      rw [evalSlots_skip, evalSlots_skip]
      obtain ⟨m, hm⟩ := drop_one_append_replicate xs n
      rw [hm]
      exact evalSlots_pad s2 (xs.drop 1) m prior
  | cons p s2 =>
      obtain ⟨m, hm⟩ := drop_one_append_replicate xs n
      have hpad := evalSlots_pad s2 (xs.drop 1) m
      have hh := headD_append_replicate_unset xs n
      cases h1 : (evaluate p (xs.headD .unset) prior).1 with
      | error e =>
          have h1a : (evaluate p ((xs ++ List.replicate n Value.unset).headD .unset) prior).1
              = .error e := by rw [hh]; exact h1
          rw [evalSlots_cons_err p s2 _ prior e h1a, evalSlots_cons_err p s2 xs prior e h1, hh]
      | ok b =>
          have h1a : (evaluate p ((xs ++ List.replicate n Value.unset).headD .unset) prior).1
              = .ok b := by rw [hh]; exact h1
          cases h2 : (evalSlots s2 (xs.drop 1) (prior ++ b)).1 with
          | error e =>
              have h2a : (evalSlots s2 ((xs ++ List.replicate n Value.unset).drop 1)
                  (prior ++ b)).1 = .error e := by rw [hm, hpad (prior ++ b)]; exact h2
              rw [evalSlots_cons_ok_err p s2 _ prior b e h1a h2a,
                  evalSlots_cons_ok_err p s2 xs prior b e h1 h2, hh, hm, hpad (prior ++ b)]
          | ok b2 =>
              have h2a : (evalSlots s2 ((xs ++ List.replicate n Value.unset).drop 1)
                  (prior ++ b)).1 = .ok b2 := by rw [hm, hpad (prior ++ b)]; exact h2
              rw [evalSlots_cons_ok_ok p s2 _ prior b b2 h1a h2a,
                  evalSlots_cons_ok_ok p s2 xs prior b b2 h1 h2, hh, hm, hpad (prior ++ b)]

/-- C4: a missing object key and a missing array index resolve to the unset
marker rather than raising: an object slot whose key is absent matches its
sub-pattern against unset; padding a sequence with explicit unset markers is
invisible to an array pattern without rest (missing index and explicit unset
element behave identically); and a positional slot beyond the sequence's
length receives unset. -/
theorem missing_entry_yields_unset :
    (∀ (k : String) (p : Pattern) (entries : List (String × Value)) (prior : Bindings),
        lookupKey entries k = none →
        evaluate (.objectPat (.cons k p .nil) none) (.map entries) prior
          = evaluate p .unset prior)
    ∧ (∀ (s : Slots) (xs : List Value) (n : Nat) (prior : Bindings),
        evaluate (.arrayPat s none) (.seq (xs ++ List.replicate n Value.unset)) prior
          = evaluate (.arrayPat s none) (.seq xs) prior)
    ∧ (∀ (p : Pattern) (prior : Bindings),
        evaluate (.arrayPat (.cons p .nil) none) (.seq []) prior
          = evaluate p .unset prior) := by
  refine ⟨?_, ?_, ?_⟩
  · intro k p entries prior h
    rw [evaluate_objectPat_none, evalOSlots_single, h]
    rfl
  · intro s xs n prior
    rw [evaluate_arrayPat_none, evaluate_arrayPat_none, evalSlots_pad]
  · intro p prior
    rw [evaluate_arrayPat_none, evalSlots_single]
    rfl

/-- Witness for C4, at the repository's examples: `const { country } = { name: "Yash" }`
yields `country = undefined` without crashing, and `const [value3 = "DEFAULT"] = []`
behaves exactly like destructuring `[undefined]`. -/
theorem missing_entry_yields_unset_witness :
    evaluate (.objectPat (.cons "country" (.binding "country") .nil) none)
      (.map [("name", .scalar (.str "Yash"))]) [] = (.ok [("country", .unset)], [])
    ∧ evaluate (.arrayPat (.cons (.defaulted (.binding "value3")
        ⟨5, fun _ => .scalar (.str "DEFAULT")⟩) .nil) none)
        (.seq ([] ++ List.replicate 1 Value.unset)) []
      = evaluate (.arrayPat (.cons (.defaulted (.binding "value3")
          ⟨5, fun _ => .scalar (.str "DEFAULT")⟩) .nil) none) (.seq []) []
    ∧ evaluate (.arrayPat (.cons (.defaulted (.binding "value3")
        ⟨5, fun _ => .scalar (.str "DEFAULT")⟩) .nil) none) (.seq []) []
      = (.ok [("value3", .scalar (.str "DEFAULT"))], [5]) := by
  refine ⟨?_, ?_, rfl⟩
  · rw [missing_entry_yields_unset.1 "country" (.binding "country")
      [("name", .scalar (.str "Yash"))] [] rfl]
    rfl
  · exact missing_entry_yields_unset.2.1 (.cons (.defaulted (.binding "value3")
      ⟨5, fun _ => .scalar (.str "DEFAULT")⟩) .nil) [] 1 []

/-! ## Claim C6 -/

/-- Unfolding the spec-side positional binding by one slot. -/
theorem positionalBind_cons (n : String) (names : List String) (xs : List Value) :
    positionalBind (n :: names) xs
      = (n, xs.headD .unset) :: positionalBind names (xs.drop 1) := by
  cases xs <;> simp [positionalBind, List.mapIdx_cons]

/-- The slot walk over plain name-binding slots produces exactly the
spec-side positional binding: slot `i` receives `xs[i]` when in range and
the unset marker otherwise. -/
theorem evalSlots_ofNames (names : List String) (xs : List Value) (prior : Bindings) :
    evalSlots (Slots.ofNames names) xs prior = (.ok (positionalBind names xs), []) := by
  induction names generalizing xs prior with
  | nil => simp [Slots.ofNames, evalSlots_nil, positionalBind, List.mapIdx_nil]
  | cons n names2 ih =>
      have h2 : (evalSlots (Slots.ofNames names2) (xs.drop 1)
          (prior ++ [(n, xs.headD .unset)])).1 = .ok (positionalBind names2 (xs.drop 1)) :=
        congrArg Prod.fst (ih (xs.drop 1) (prior ++ [(n, xs.headD .unset)]))
      have h2log : (evalSlots (Slots.ofNames names2) (xs.drop 1)
          (prior ++ [(n, xs.headD .unset)])).2 = [] :=
        congrArg Prod.snd (ih (xs.drop 1) (prior ++ [(n, xs.headD .unset)]))
      rw [show Slots.ofNames (n :: names2) = .cons (.binding n) (Slots.ofNames names2) from rfl,
        evalSlots_cons_ok_ok (.binding n) (Slots.ofNames names2) xs prior
          [(n, xs.headD .unset)] (positionalBind names2 (xs.drop 1)) rfl h2,
        h2log, positionalBind_cons]
      rfl

/-- C6: for every sequence matched by an array pattern of `n` positional
name-binding slots, slot `i` binds `v[i]` when `i < length v` and otherwise
receives the unset marker; a slot beyond the length applies its default when
it has one; skip slots consume a position without emitting a binding, so
`[, , thirdColor]` against `["red","green","blue"]` binds
`thirdColor = "blue"`. -/
theorem array_positional_slots :
    (∀ (names : List String) (xs : List Value) (prior : Bindings),
        evaluate (.arrayPat (Slots.ofNames names) none) (.seq xs) prior
          = (.ok (positionalBind names xs), []))
    ∧ (∀ (s : Slots) (xs : List Value) (prior : Bindings),
        evaluate (.arrayPat (.skip s) none) (.seq xs) prior
          = evaluate (.arrayPat s none) (.seq (xs.drop 1)) prior)
    ∧ (∀ (nm : String) (ex : DExpr) (prior : Bindings),
        evaluate (.arrayPat (.cons (.defaulted (.binding nm) ex) .nil) none) (.seq []) prior
          = (.ok [(nm, ex.fn prior)], [ex.eid]))
    ∧ evaluate (.arrayPat (.skip (.skip (.cons (.binding "thirdColor") .nil))) none)
        (.seq [.scalar (.str "red"), .scalar (.str "green"), .scalar (.str "blue")]) []
      = (.ok [("thirdColor", .scalar (.str "blue"))], []) := by
  refine ⟨?_, ?_, ?_, rfl⟩
  · intro names xs prior
    rw [evaluate_arrayPat_none, evalSlots_ofNames]
  · intro s xs prior
    rw [evaluate_arrayPat_none, evaluate_arrayPat_none, evalSlots_skip]
  · intro nm ex prior
    rw [evaluate_arrayPat_none, evalSlots_single]
    rfl

/-! ## Claim C5 -/

/-- C5: a rest slot binds exactly the entries not claimed by any
named/positional slot, in the input's original order.  For an object
pattern the rest mapping is an order-preserving sublist of the input's
entries containing precisely the entries whose key is claimed by no named
slot; for an array pattern the rest sequence is exactly the input's suffix
past the positions the slots consume. -/
theorem rest_collects_unclaimed_in_order :
    (∀ (s : OSlots) (rn : String) (entries : List (String × Value)) (prior : Bindings)
        (b : Bindings),
        (evaluate (.objectPat s (some rn)) (.map entries) prior).1 = .ok b →
        ∃ restE, (rn, Value.map restE) ∈ b
          ∧ restE.Sublist entries
          ∧ ∀ e, e ∈ restE ↔ e ∈ entries ∧ s.claimedKeys.contains e.1 = false)
    ∧ (∀ (s : Slots) (rn : String) (xs : List Value) (prior : Bindings) (b : Bindings),
        (evaluate (.arrayPat s (some rn)) (.seq xs) prior).1 = .ok b →
        ∃ restXs, (rn, Value.seq restXs) ∈ b
          ∧ restXs = xs.drop s.length
          ∧ restXs.Sublist xs) := by
  constructor
  · intro s rn entries prior b hb
    cases h1 : (evalOSlots s entries prior).1 with
    | error e =>
        rw [evaluate_objectPat_some_err s rn entries prior e h1] at hb
        exact absurd hb (by simp)
    | ok b0 =>
        rw [evaluate_objectPat_some_ok s rn entries prior b0 h1] at hb
        refine ⟨restEntries entries s.claimedKeys, ?_, ?_, ?_⟩
        · rw [show b = b0 ++ [(rn, Value.map (restEntries entries s.claimedKeys))] from
            by injection hb.symm]
          simp
        · exact List.filter_sublist entries
        · intro e
          simp [restEntries, List.mem_filter]
  · intro s rn xs prior b hb
    cases h1 : (evalSlots s xs prior).1 with
    | error e =>
        rw [evaluate_arrayPat_some_err s rn xs prior e h1] at hb
        exact absurd hb (by simp)
    | ok b0 =>
        rw [evaluate_arrayPat_some_ok s rn xs prior b0 h1] at hb
        refine ⟨xs.drop s.length, ?_, rfl, List.drop_sublist _ _⟩
        rw [show b = b0 ++ [(rn, Value.seq (xs.drop s.length))] from by injection hb.symm]
        simp

/-- Witness for C5, at the spec's example: `ObjectPattern({a}, rest="r")`
against `{a:1, b:2, c:3}` yields `a = 1` and `r = {b:2, c:3}`, and the rest
mapping is exactly the unclaimed entries in original order; likewise for the
repository's `[firstScore, secondScore, ...restScores]` example. -/
theorem rest_collects_unclaimed_in_order_witness :
    evaluate (.objectPat (.cons "a" (.binding "a") .nil) (some "r"))
      (.map [("a", .scalar (.num 1)), ("b", .scalar (.num 2)), ("c", .scalar (.num 3))]) []
      = (.ok [("a", .scalar (.num 1)),
              ("r", .map [("b", .scalar (.num 2)), ("c", .scalar (.num 3))])], [])
    ∧ (∃ restE, ("r", Value.map restE)
          ∈ [("a", Value.scalar (.num 1)),
             ("r", Value.map [("b", Value.scalar (.num 2)), ("c", Value.scalar (.num 3))])]
        ∧ restE.Sublist [("a", Value.scalar (.num 1)), ("b", Value.scalar (.num 2)),
            ("c", Value.scalar (.num 3))]
        ∧ ∀ e, e ∈ restE
            ↔ e ∈ [("a", Value.scalar (.num 1)), ("b", Value.scalar (.num 2)),
                ("c", Value.scalar (.num 3))]
              ∧ (OSlots.cons "a" (.binding "a") .nil).claimedKeys.contains e.1 = false)
    ∧ evaluate (.arrayPat (.cons (.binding "firstScore")
        (.cons (.binding "secondScore") .nil)) (some "restScores"))
        (.seq [.scalar (.num 80), .scalar (.num 90), .scalar (.num 75), .scalar (.num 60)]) []
      = (.ok [("firstScore", .scalar (.num 80)), ("secondScore", .scalar (.num 90)),
              ("restScores", .seq [.scalar (.num 75), .scalar (.num 60)])], []) :=
  ⟨rfl, rest_collects_unclaimed_in_order.1 (.cons "a" (.binding "a") .nil) "r"
    [("a", .scalar (.num 1)), ("b", .scalar (.num 2)), ("c", .scalar (.num 3))] []
    [("a", .scalar (.num 1)), ("r", .map [("b", .scalar (.num 2)), ("c", .scalar (.num 3))])]
    rfl, rfl⟩

/-! ## Claim C7 -/

/-- Position zero of a sequence (or unset past the end). -/
theorem getD_zero_headD (xs : List Value) (d : Value) : xs.getD 0 d = xs.headD d := by
  cases xs <;> simp

/-- Position `i + 1` of a sequence is position `i` after dropping one. -/
theorem getD_succ_dropOne (xs : List Value) (i : Nat) (d : Value) :
    xs.getD (i + 1) d = (xs.drop 1).getD i d := by
  cases xs <;> simp

/-- A defaulted leaf slot: the default fires exactly on the unset marker. -/
theorem evaluate_defaulted_leaf (n : String) (ex : DExpr) (v : Value) (prior : Bindings) :
    evaluate (.defaulted (.binding n) ex) v prior
      = if isUnset v then (.ok [(n, ex.fn prior)], [ex.eid]) else (.ok [(n, v)], []) := by
  cases v <;> rfl

/-- The spec-side invocation list only mentions the slots' own expression
identifiers. -/
theorem invokedIds_sub (L : List (String × DExpr)) (xs : List Value) :
    ∀ j ∈ invokedIds L xs, j ∈ L.map (fun q => q.2.eid) := by
  induction L generalizing xs with
  | nil => simp [invokedIds]
  | cons q L2 ih =>
      obtain ⟨n, ex⟩ := q
      intro j hj
      have hj2 : j ∈ (if isUnset (xs.headD .unset) then [ex.eid] else [])
          ++ invokedIds L2 (xs.drop 1) := hj
      rcases List.mem_append.1 hj2 with h | h
      · cases hv : isUnset (xs.headD .unset)
        · rw [hv] at h
          simp at h
        · rw [hv] at h
          simp at h
          simp [h]
      · simp only [List.map_cons, List.mem_cons]
        exact Or.inr (ih (xs.drop 1) j h)

/-- A run of defaulted leaf slots never fails, and its invocation log is
exactly the spec-side invocation list: the slots whose incoming value is the
unset marker, in slot order. -/
theorem evalSlots_defaultedSlots (L : List (String × DExpr)) (xs : List Value)
    (prior : Bindings) :
    (∃ b, (evalSlots (defaultedSlots L) xs prior).1 = .ok b)
    ∧ (evalSlots (defaultedSlots L) xs prior).2 = invokedIds L xs := by
  induction L generalizing xs prior with
  | nil => exact ⟨⟨[], rfl⟩, rfl⟩
  | cons q L2 ih =>
      obtain ⟨n, ex⟩ := q
      have hstep : defaultedSlots ((n, ex) :: L2)
          = .cons (.defaulted (.binding n) ex) (defaultedSlots L2) := rfl
      have hunfold : invokedIds ((n, ex) :: L2) xs
          = (if isUnset (xs.headD .unset) then [ex.eid] else [])
            ++ invokedIds L2 (xs.drop 1) := rfl
      cases hv : isUnset (xs.headD .unset) with
      | true =>
          have hfirst : evaluate (.defaulted (.binding n) ex) (xs.headD .unset) prior
              = (.ok [(n, ex.fn prior)], [ex.eid]) := by
            rw [evaluate_defaulted_leaf, hv]
            rfl
          obtain ⟨⟨b2, hb2⟩, hlog2⟩ := ih (xs.drop 1) (prior ++ [(n, ex.fn prior)])
          rw [hstep, evalSlots_cons_ok_ok (.defaulted (.binding n) ex) (defaultedSlots L2)
            xs prior [(n, ex.fn prior)] b2 (by rw [hfirst]) hb2]
          refine ⟨⟨[(n, ex.fn prior)] ++ b2, rfl⟩, ?_⟩
          rw [show (evaluate (.defaulted (.binding n) ex) (xs.headD .unset) prior).2
              = [ex.eid] from by rw [hfirst], hlog2, hunfold, hv]
          rfl
      | false =>
          have hfirst : evaluate (.defaulted (.binding n) ex) (xs.headD .unset) prior
              = (.ok [(n, xs.headD .unset)], []) := by
            rw [evaluate_defaulted_leaf, hv]
            rfl
          obtain ⟨⟨b2, hb2⟩, hlog2⟩ := ih (xs.drop 1) (prior ++ [(n, xs.headD .unset)])
          rw [hstep, evalSlots_cons_ok_ok (.defaulted (.binding n) ex) (defaultedSlots L2)
            xs prior [(n, xs.headD .unset)] b2 (by rw [hfirst]) hb2]
          refine ⟨⟨[(n, xs.headD .unset)] ++ b2, rfl⟩, ?_⟩
          rw [show (evaluate (.defaulted (.binding n) ex) (xs.headD .unset) prior).2
              = [] from by rw [hfirst], hlog2, hunfold, hv]
          rfl

/-- Counting one slot's expression identifier in the spec-side invocation
list: one when the slot's incoming value is unset, zero otherwise. -/
theorem count_invokedIds (L : List (String × DExpr)) (xs : List Value) (i : Nat)
    (hi : i < L.length) (hnd : (L.map (fun q => q.2.eid)).Nodup) :
    (invokedIds L xs).count (L.get ⟨i, hi⟩).2.eid
      = if isUnset (xs.getD i Value.unset) then 1 else 0 := by
  induction L generalizing xs i with
  | nil => exact absurd hi (by simp)
  | cons q L2 ih =>
      have hnd2 : (L2.map (fun q => q.2.eid)).Nodup := (List.nodup_cons.1 hnd).2
      have hqnot : q.2.eid ∉ L2.map (fun q => q.2.eid) := (List.nodup_cons.1 hnd).1
      have hunfold : invokedIds (q :: L2) xs
          = (if isUnset (xs.headD .unset) then [q.2.eid] else [])
            ++ invokedIds L2 (xs.drop 1) := rfl
      cases i with
      | zero =>
          have hnotin : q.2.eid ∉ invokedIds L2 xs.tail := fun h =>
            hqnot (invokedIds_sub L2 xs.tail _ h)
          rw [getD_zero_headD, hunfold]
          cases hv : isUnset (xs.headD .unset) <;>
            simp [List.count_append, List.count_eq_zero.2 hnotin, List.get_cons_zero]
      | succ i2 =>
          have hi2 : i2 < L2.length := by simpa using hi
          have hne : (L2.get ⟨i2, hi2⟩).2.eid ≠ q.2.eid := by
            intro h
            exact hqnot (h ▸ List.mem_map.2 ⟨L2.get ⟨i2, hi2⟩, List.get_mem L2 i2 hi2, rfl⟩)
          have hget : ((q :: L2).get ⟨i2 + 1, hi⟩) = L2.get ⟨i2, hi2⟩ := rfl
          have hcount := ih (xs.drop 1) i2 hi2 hnd2
          rw [hget, getD_succ_dropOne, hunfold]
          have hz : List.count (L2.get ⟨i2, hi2⟩).2.eid [q.2.eid] = 0 :=
            List.count_eq_zero.2 (by simpa using hne)
          cases hv : isUnset (xs.headD .unset)
          · rw [if_neg (by simp), List.nil_append]
            exact hcount
          · rw [if_pos rfl, List.count_append, hz, hcount, Nat.zero_add]

/-- A one-parameter adapter call delegates to the parameter's pattern, fed
the first argument (or unset when no argument is supplied). -/
theorem bindParams_single (p : Pattern) (args : List Value) (prior : Bindings) :
    bindParams [p] args prior = evaluate p (args.headD .unset) prior := by
  have heta : evaluate p (args.headD .unset) prior
      = ((evaluate p (args.headD .unset) prior).1,
         (evaluate p (args.headD .unset) prior).2) := rfl
  cases h1 : (evaluate p (args.headD .unset) prior).1 with
  | error e =>
      rw [bindParams_cons_err p [] args prior e h1, heta, h1]
  | ok b =>
      rw [bindParams_cons_ok_ok p [] args prior b [] h1 rfl]
      simp only [bindParams_nil, List.append_nil]
      rw [heta, h1]

/-- C7: each slot's default expression is evaluated lazily at evaluation
time, exactly once per slot per evaluation when (and only when) the slot's
incoming value is the unset marker — never when a value, null included, is
present — and it reads exactly the bindings already emitted earlier
(left to right) in the same evaluation, both inside one array pattern and
across adapter parameters; the count holds for every evaluation separately,
so no memoization across evaluations occurs in the model. -/
theorem defaults_lazy_once_left_to_right :
    (∀ (L : List (String × DExpr)) (xs : List Value) (prior : Bindings) (i : Nat)
        (hi : i < L.length), (L.map (fun q => q.2.eid)).Nodup →
        (evaluate (.arrayPat (defaultedSlots L) none) (.seq xs) prior).2.count
            (L.get ⟨i, hi⟩).2.eid
          = if isUnset (xs.getD i Value.unset) then 1 else 0)
    ∧ (∀ (a b : String) (ex : DExpr) (v : Value) (prior : Bindings),
        evaluate (.arrayPat (.cons (.binding a)
            (.cons (.defaulted (.binding b) ex) .nil)) none) (.seq [v]) prior
          = (.ok [(a, v), (b, ex.fn (prior ++ [(a, v)]))], [ex.eid]))
    ∧ (∀ (nm gr : String) (ex : DExpr) (v : Value) (prior : Bindings),
        bindParams [.binding nm, .defaulted (.binding gr) ex] [v] prior
          = (.ok [(nm, v), (gr, ex.fn (prior ++ [(nm, v)]))], [ex.eid])) := by
  refine ⟨?_, ?_, ?_⟩
  · intro L xs prior i hi hnd
    rw [evaluate_arrayPat_log, (evalSlots_defaultedSlots L xs prior).2]
    exact count_invokedIds L xs i hi hnd
  · intro a b ex v prior
    have h2 : (evalSlots (.cons (.defaulted (.binding b) ex) .nil)
        (([v] : List Value).drop 1) (prior ++ [(a, v)])).1
        = .ok [(b, ex.fn (prior ++ [(a, v)]))] := by
      rw [evalSlots_single]
      rfl
    rw [evaluate_arrayPat_none,
      evalSlots_cons_ok_ok (.binding a) (.cons (.defaulted (.binding b) ex) .nil)
        [v] prior [(a, v)] [(b, ex.fn (prior ++ [(a, v)]))] rfl h2]
    rw [show (evalSlots (.cons (.defaulted (.binding b) ex) .nil)
        (([v] : List Value).drop 1) (prior ++ [(a, v)])).2 = [ex.eid] from by
      rw [evalSlots_single]
      rfl]
    rfl
  · intro nm gr ex v prior
    have h2 : (bindParams [.defaulted (.binding gr) ex] (([v] : List Value).drop 1)
        (prior ++ [(nm, v)])).1 = .ok [(gr, ex.fn (prior ++ [(nm, v)]))] := by
      rw [bindParams_single]
      rfl
    rw [bindParams_cons_ok_ok (.binding nm) [.defaulted (.binding gr) ex] [v] prior
      [(nm, v)] [(gr, ex.fn (prior ++ [(nm, v)]))] rfl h2]
    rw [show (bindParams [.defaulted (.binding gr) ex] (([v] : List Value).drop 1)
        (prior ++ [(nm, v)])).2 = [ex.eid] from by
      rw [bindParams_single]
      rfl]
    rfl

/-- Witness for C7, at the repository's `const [value = "DEFAULT"] = ...`
examples: against `[undefined]` the default is invoked exactly once, against
`[null]` it is not invoked. -/
theorem defaults_lazy_once_left_to_right_witness :
    (evaluate (.arrayPat (defaultedSlots [("value", ⟨9, fun _ => .scalar (.str "DEFAULT")⟩)])
        none) (.seq [Value.unset]) []).2.count 9 = 1
    ∧ (evaluate (.arrayPat (defaultedSlots [("value", ⟨9, fun _ => .scalar (.str "DEFAULT")⟩)])
        none) (.seq [Value.null]) []).2.count 9 = 0 := by
  have h1 := defaults_lazy_once_left_to_right.1
    [("value", ⟨9, fun _ => .scalar (.str "DEFAULT")⟩)] [Value.unset] [] 0
    (by decide) (by simp)
  have h2 := defaults_lazy_once_left_to_right.1
    [("value", ⟨9, fun _ => .scalar (.str "DEFAULT")⟩)] [Value.null] [] 0
    (by decide) (by simp)
  exact ⟨by simpa [isUnset] using h1, by simpa [isUnset] using h2⟩

/-! ## Claim C9 -/

mutual

/-- On success, the produced binding names are exactly the pattern's output
names (one per leaf and rest slot), in emission order. -/
theorem names_pat (p : Pattern) (v : Value) (prior : Bindings) (b : Bindings)
    (h : (evaluate p v prior).1 = .ok b) : b.map Prod.fst = p.outNames := by
  cases p with
  | binding n =>
      have hb : [(n, v)] = b := by injection h
      rw [← hb]
      rfl
  | renamed n k =>
      have hb : [(n, v)] = b := by injection h
      rw [← hb]
      rfl
  | defaulted q ex =>
      cases v with
      | unset =>
          rw [evaluate_defaulted_unset] at h
          exact names_pat q (ex.fn prior) prior b h
      | null =>
          rw [evaluate_defaulted_null] at h
          exact names_pat q .null prior b h
      | scalar sc =>
          rw [evaluate_defaulted_scalar] at h
          exact names_pat q (.scalar sc) prior b h
      | seq xs =>
          rw [evaluate_defaulted_seq] at h
          exact names_pat q (.seq xs) prior b h
      | map es =>
          rw [evaluate_defaulted_map] at h
          exact names_pat q (.map es) prior b h
  | arrayPat s rest =>
      cases v with
      | seq xs =>
          cases rest with
          | none =>
              rw [evaluate_arrayPat_none] at h
              rw [names_slots s xs prior b h]
              simp [Pattern.outNames]
          | some rn =>
              cases h1 : (evalSlots s xs prior).1 with
              | error e =>
                  rw [evaluate_arrayPat_some_err s rn xs prior e h1] at h
                  exact absurd h (by simp)
              | ok b0 =>
                  rw [evaluate_arrayPat_some_ok s rn xs prior b0 h1] at h
                  have hb : b0 ++ [(rn, Value.seq (xs.drop s.length))] = b := by injection h
                  rw [← hb]
                  simp [Pattern.outNames, names_slots s xs prior b0 h1]
      | unset => exact absurd (evaluate_arrayPat_unset s rest prior ▸ h) (by simp)
      | null => exact absurd (evaluate_arrayPat_null s rest prior ▸ h) (by simp)
      | scalar sc => exact absurd (evaluate_arrayPat_scalar s rest sc prior ▸ h) (by simp)
      | map es => exact absurd (evaluate_arrayPat_map s rest es prior ▸ h) (by simp)
  | objectPat s rest =>
      cases v with
      | map es =>
          cases rest with
          | none =>
              rw [evaluate_objectPat_none] at h
              rw [names_oslots s es prior b h]
              simp [Pattern.outNames]
          | some rn =>
              cases h1 : (evalOSlots s es prior).1 with
              | error e =>
                  rw [evaluate_objectPat_some_err s rn es prior e h1] at h
                  exact absurd h (by simp)
              | ok b0 =>
                  rw [evaluate_objectPat_some_ok s rn es prior b0 h1] at h
                  have hb : b0 ++ [(rn, Value.map (restEntries es s.claimedKeys))] = b := by
                    injection h
                  rw [← hb]
                  simp [Pattern.outNames, names_oslots s es prior b0 h1]
      | unset => exact absurd (evaluate_objectPat_unset s rest prior ▸ h) (by simp)
      | null => exact absurd (evaluate_objectPat_null s rest prior ▸ h) (by simp)
      | scalar sc => exact absurd (evaluate_objectPat_scalar s rest sc prior ▸ h) (by simp)
      | seq xs => exact absurd (evaluate_objectPat_seq s rest xs prior ▸ h) (by simp)

/-- On success, the slot walk's binding names are exactly the slots' output
names. -/
theorem names_slots (s : Slots) (xs : List Value) (prior : Bindings) (b : Bindings)
    (h : (evalSlots s xs prior).1 = .ok b) : b.map Prod.fst = s.outNames := by
  cases s with
  | nil =>
      have hb : ([] : Bindings) = b := by injection h
      rw [← hb]
      rfl
  | skip s2 =>
      rw [evalSlots_skip] at h
      rw [names_slots s2 (xs.drop 1) prior b h]
      rfl
  | cons p s2 =>
      cases h1 : (evaluate p (xs.headD .unset) prior).1 with
      | error e =>
          rw [evalSlots_cons_err p s2 xs prior e h1] at h
          exact absurd h (by simp)
      | ok b1 =>
          cases h2 : (evalSlots s2 (xs.drop 1) (prior ++ b1)).1 with
          | error e =>
              rw [evalSlots_cons_ok_err p s2 xs prior b1 e h1 h2] at h
              exact absurd h (by simp)
          | ok b2 =>
              rw [evalSlots_cons_ok_ok p s2 xs prior b1 b2 h1 h2] at h
              have hb : b1 ++ b2 = b := by injection h
              rw [← hb]
              simp [Slots.outNames, names_pat p (xs.headD .unset) prior b1 h1,
                names_slots s2 (xs.drop 1) (prior ++ b1) b2 h2]

/-- On success, the keyed slot walk's binding names are exactly the slots'
output names. -/
theorem names_oslots (s : OSlots) (es : List (String × Value)) (prior : Bindings)
    (b : Bindings) (h : (evalOSlots s es prior).1 = .ok b) : b.map Prod.fst = s.outNames := by
  cases s with
  | nil =>
      have hb : ([] : Bindings) = b := by injection h
      rw [← hb]
      rfl
  | cons k p s2 =>
      cases h1 : (evaluate p ((lookupKey es k).getD .unset) prior).1 with
      | error e =>
          rw [evalOSlots_cons_err k p s2 es prior e h1] at h
          exact absurd h (by simp)
      | ok b1 =>
          cases h2 : (evalOSlots s2 es (prior ++ b1)).1 with
          | error e =>
              rw [evalOSlots_cons_ok_err k p s2 es prior b1 e h1 h2] at h
              exact absurd h (by simp)
          | ok b2 =>
              rw [evalOSlots_cons_ok_ok k p s2 es prior b1 b2 h1 h2] at h
              have hb : b1 ++ b2 = b := by injection h
              rw [← hb]
              simp [OSlots.outNames, names_pat p ((lookupKey es k).getD .unset) prior b1 h1,
                names_oslots s2 es (prior ++ b1) b2 h2]

end

/-- Appending an entry with a different key does not change a lookup. -/
theorem lookupKey_append_ne (entries : List (String × Value)) (k : String) (w : Value)
    (key : String) (hk : key ≠ k) :
    lookupKey (entries ++ [(k, w)]) key = lookupKey entries key := by
  induction entries with
  | nil =>
      simp only [List.nil_append, lookupKey]
      rw [if_neg (fun h => hk h.symm)]
  | cons e rest ih =>
      obtain ⟨ek, ev⟩ := e
      by_cases he : ek = key
      · simp [lookupKey, he]
      · simp [lookupKey, he, ih]

/-- Appending a mapping entry claimed by no slot leaves the keyed slot walk
unchanged. -/
theorem evalOSlots_append_unclaimed (s : OSlots) (entries : List (String × Value))
    (k : String) (w : Value) (prior : Bindings)
    (hk : ∀ key ∈ s.claimedKeys, key ≠ k) :
    evalOSlots s (entries ++ [(k, w)]) prior = evalOSlots s entries prior := by
  cases s with
  | nil => rfl
  | cons key p s2 =>
      have hkey : key ≠ k := hk key (by simp [OSlots.claimedKeys])
      have hk2 : ∀ key2 ∈ s2.claimedKeys, key2 ≠ k := fun key2 h2 =>
        hk key2 (by simp [OSlots.claimedKeys, h2])
      have hlook := lookupKey_append_ne entries k w key hkey
      cases h1 : (evaluate p ((lookupKey entries key).getD .unset) prior).1 with
      | error e =>
          rw [evalOSlots_cons_err key p s2 (entries ++ [(k, w)]) prior e
            (by rw [hlook]; exact h1), evalOSlots_cons_err key p s2 entries prior e h1, hlook]
      | ok b =>
          have hrec := evalOSlots_append_unclaimed s2 entries k w (prior ++ b) hk2
          cases h2 : (evalOSlots s2 entries (prior ++ b)).1 with
          | error e =>
              rw [evalOSlots_cons_ok_err key p s2 (entries ++ [(k, w)]) prior b e
                  (by rw [hlook]; exact h1) (by rw [hrec]; exact h2),
                evalOSlots_cons_ok_err key p s2 entries prior b e h1 h2, hlook, hrec]
          | ok b2 =>
              rw [evalOSlots_cons_ok_ok key p s2 (entries ++ [(k, w)]) prior b b2
                  (by rw [hlook]; exact h1) (by rw [hrec]; exact h2),
                evalOSlots_cons_ok_ok key p s2 entries prior b b2 h1 h2, hlook, hrec]

/-- C9: a successful evaluation produces exactly one binding per
`Binding`/`Renamed` leaf and rest slot of the pattern and nothing else, in
emission order; and a mapping entry claimed by no slot of a rest-free object
pattern is silently ignored: it produces no binding and no error, leaving
the whole result unchanged. -/
theorem bindings_exactly_outNames :
    (∀ (p : Pattern) (v : Value) (prior : Bindings) (b : Bindings),
        (evaluate p v prior).1 = .ok b → b.map Prod.fst = p.outNames)
    ∧ (∀ (s : OSlots) (entries : List (String × Value)) (k : String) (w : Value)
        (prior : Bindings), (∀ key ∈ s.claimedKeys, key ≠ k) →
        evaluate (.objectPat s none) (.map (entries ++ [(k, w)])) prior
          = evaluate (.objectPat s none) (.map entries) prior) := by
  refine ⟨names_pat, ?_⟩
  intro s entries k w prior hk
  rw [evaluate_objectPat_none, evaluate_objectPat_none, evalOSlots_append_unclaimed s entries
    k w prior hk]

/-- Witness for C9, at the repository's `printProductInfo` / `showTitle`
examples: destructuring `{title, price}` from a product that also has a
`brand` entry binds exactly `title` and `price`; the unclaimed `brand` entry
changes nothing and raises nothing. -/
theorem bindings_exactly_outNames_witness :
    ([("title", Value.scalar (.str "Laptop")), ("price", Value.scalar (.num 65000))].map
        Prod.fst
      = (Pattern.objectPat (.cons "title" (.binding "title")
          (.cons "price" (.binding "price") .nil)) none).outNames)
    ∧ evaluate (.objectPat (.cons "title" (.binding "title")
          (.cons "price" (.binding "price") .nil)) none)
        (.map [("title", .scalar (.str "Laptop")), ("price", .scalar (.num 65000)),
          ("brand", .scalar (.str "Acer"))]) []
      = evaluate (.objectPat (.cons "title" (.binding "title")
          (.cons "price" (.binding "price") .nil)) none)
        (.map [("title", .scalar (.str "Laptop")), ("price", .scalar (.num 65000))]) [] := by
  constructor
  · exact bindings_exactly_outNames.1
      (.objectPat (.cons "title" (.binding "title") (.cons "price" (.binding "price") .nil))
        none)
      (.map [("title", .scalar (.str "Laptop")), ("price", .scalar (.num 65000)),
        ("brand", .scalar (.str "Acer"))]) []
      [("title", .scalar (.str "Laptop")), ("price", .scalar (.num 65000))] rfl
  · exact bindings_exactly_outNames.2
      (.cons "title" (.binding "title") (.cons "price" (.binding "price") .nil))
      [("title", .scalar (.str "Laptop")), ("price", .scalar (.num 65000))]
      "brand" (.scalar (.str "Acer")) [] (by decide)

/-! ## Claim C8 -/

mutual

/-- When every default expression of a pattern ignores the prior-binding
environment, evaluation does not depend on the prior bindings. -/
theorem const_indep_pat (p : Pattern)
    (hc : ∀ ex ∈ p.exprs, ∀ b1 b2 : Bindings, ex.fn b1 = ex.fn b2)
    (v : Value) (prior prior2 : Bindings) :
    evaluate p v prior = evaluate p v prior2 := by
  cases p with
  | binding n => rfl
  | renamed n k => rfl
  | defaulted q ex =>
      have hq : ∀ e ∈ q.exprs, ∀ b1 b2 : Bindings, e.fn b1 = e.fn b2 := fun e he =>
        hc e (by simp [Pattern.exprs, he])
      have hex := hc ex (by simp [Pattern.exprs])
      cases v with
      | unset =>
          rw [evaluate_defaulted_unset, evaluate_defaulted_unset, hex prior prior2,
            const_indep_pat q hq (ex.fn prior2) prior prior2]
      | null =>
          rw [evaluate_defaulted_null, evaluate_defaulted_null]
          exact const_indep_pat q hq .null prior prior2
      | scalar sc =>
          rw [evaluate_defaulted_scalar, evaluate_defaulted_scalar]
          exact const_indep_pat q hq (.scalar sc) prior prior2
      | seq xs =>
          rw [evaluate_defaulted_seq, evaluate_defaulted_seq]
          exact const_indep_pat q hq (.seq xs) prior prior2
      | map es =>
          rw [evaluate_defaulted_map, evaluate_defaulted_map]
          exact const_indep_pat q hq (.map es) prior prior2
  | arrayPat s rest =>
      cases v with
      | seq xs =>
          cases rest with
          | none =>
              rw [evaluate_arrayPat_none, evaluate_arrayPat_none]
              exact const_indep_slots s (fun e he => hc e he) xs prior prior2
          | some rn =>
              rw [evaluate_arrayPat_some, evaluate_arrayPat_some,
                const_indep_slots s (fun e he => hc e he) xs prior prior2]
      | unset => rfl
      | null => rfl
      | scalar sc => rfl
      | map es => rfl
  | objectPat s rest =>
      cases v with
      | map es =>
          cases rest with
          | none =>
              rw [evaluate_objectPat_none, evaluate_objectPat_none]
              exact const_indep_oslots s (fun e he => hc e he) es prior prior2
          | some rn =>
              rw [evaluate_objectPat_some, evaluate_objectPat_some,
                const_indep_oslots s (fun e he => hc e he) es prior prior2]
      | unset => rfl
      | null => rfl
      | scalar sc => rfl
      | seq xs => rfl

/-- Prior-independence for array slot walks with constant defaults. -/
theorem const_indep_slots (s : Slots)
    (hc : ∀ ex ∈ s.exprs, ∀ b1 b2 : Bindings, ex.fn b1 = ex.fn b2)
    (xs : List Value) (prior prior2 : Bindings) :
    evalSlots s xs prior = evalSlots s xs prior2 := by
  cases s with
  | nil => rfl
  | skip s2 =>
      rw [evalSlots_skip, evalSlots_skip]
      exact const_indep_slots s2 (fun e he => hc e he) (xs.drop 1) prior prior2
  | cons p s2 =>
      have hcp : ∀ e ∈ p.exprs, ∀ b1 b2 : Bindings, e.fn b1 = e.fn b2 := fun e he =>
        hc e (List.mem_append.2 (Or.inl he))
      have hcs : ∀ e ∈ s2.exprs, ∀ b1 b2 : Bindings, e.fn b1 = e.fn b2 := fun e he =>
        hc e (List.mem_append.2 (Or.inr he))
      have hp := const_indep_pat p hcp (xs.headD .unset) prior prior2
      cases h1 : (evaluate p (xs.headD .unset) prior).1 with
      | error e =>
          have h1b : (evaluate p (xs.headD .unset) prior2).1 = .error e := by
            rw [← hp]
            exact h1
          rw [evalSlots_cons_err p s2 xs prior e h1, evalSlots_cons_err p s2 xs prior2 e h1b,
            hp]
      | ok b =>
          have h1b : (evaluate p (xs.headD .unset) prior2).1 = .ok b := by
            rw [← hp]
            exact h1
          have hrec := const_indep_slots s2 hcs (xs.drop 1) (prior ++ b) (prior2 ++ b)
          cases h2 : (evalSlots s2 (xs.drop 1) (prior ++ b)).1 with
          | error e =>
              have h2b : (evalSlots s2 (xs.drop 1) (prior2 ++ b)).1 = .error e := by
                rw [← hrec]
                exact h2
              rw [evalSlots_cons_ok_err p s2 xs prior b e h1 h2,
                evalSlots_cons_ok_err p s2 xs prior2 b e h1b h2b, hp, hrec]
          | ok b2 =>
              have h2b : (evalSlots s2 (xs.drop 1) (prior2 ++ b)).1 = .ok b2 := by
                rw [← hrec]
                exact h2
              rw [evalSlots_cons_ok_ok p s2 xs prior b b2 h1 h2,
                evalSlots_cons_ok_ok p s2 xs prior2 b b2 h1b h2b, hp, hrec]

/-- Prior-independence for keyed slot walks with constant defaults. -/
theorem const_indep_oslots (s : OSlots)
    (hc : ∀ ex ∈ s.exprs, ∀ b1 b2 : Bindings, ex.fn b1 = ex.fn b2)
    (es : List (String × Value)) (prior prior2 : Bindings) :
    evalOSlots s es prior = evalOSlots s es prior2 := by
  cases s with
  | nil => rfl
  | cons k p s2 =>
      have hcp : ∀ e ∈ p.exprs, ∀ b1 b2 : Bindings, e.fn b1 = e.fn b2 := fun e he =>
        hc e (List.mem_append.2 (Or.inl he))
      have hcs : ∀ e ∈ s2.exprs, ∀ b1 b2 : Bindings, e.fn b1 = e.fn b2 := fun e he =>
        hc e (List.mem_append.2 (Or.inr he))
      have hp := const_indep_pat p hcp ((lookupKey es k).getD .unset) prior prior2
      cases h1 : (evaluate p ((lookupKey es k).getD .unset) prior).1 with
      | error e =>
          have h1b : (evaluate p ((lookupKey es k).getD .unset) prior2).1 = .error e := by
            rw [← hp]
            exact h1
          rw [evalOSlots_cons_err k p s2 es prior e h1,
            evalOSlots_cons_err k p s2 es prior2 e h1b, hp]
      | ok b =>
          have h1b : (evaluate p ((lookupKey es k).getD .unset) prior2).1 = .ok b := by
            rw [← hp]
            exact h1
          have hrec := const_indep_oslots s2 hcs es (prior ++ b) (prior2 ++ b)
          cases h2 : (evalOSlots s2 es (prior ++ b)).1 with
          | error e =>
              have h2b : (evalOSlots s2 es (prior2 ++ b)).1 = .error e := by
                rw [← hrec]
                exact h2
              rw [evalOSlots_cons_ok_err k p s2 es prior b e h1 h2,
                evalOSlots_cons_ok_err k p s2 es prior2 b e h1b h2b, hp, hrec]
          | ok b2 =>
              have h2b : (evalOSlots s2 es (prior2 ++ b)).1 = .ok b2 := by
                rw [← hrec]
                exact h2
              rw [evalOSlots_cons_ok_ok k p s2 es prior b b2 h1 h2,
                evalOSlots_cons_ok_ok k p s2 es prior2 b b2 h1b h2b, hp, hrec]

end

/-- Any two failures are equal (there is a single failure kind). -/
theorem failure_eq (e e2 : Failure) : e = e2 := by
  cases e
  cases e2
  rfl

/-- Joining after a failed slot fails. -/
theorem joinResults_cons_error (rest : List (Except Failure Bindings)) (e : Failure) :
    joinResults (.error e :: rest) = .error e := rfl

/-- Joining after a successful slot prepends its bindings. -/
theorem joinResults_cons_ok (b : Bindings) (rest : List (Except Failure Bindings))
    (b2 : Bindings) (h2 : joinResults rest = .ok b2) :
    joinResults (.ok b :: rest) = .ok (b ++ b2) := by
  simp [joinResults, h2]

/-- Joining propagates a later failure. -/
theorem joinResults_cons_ok_error (b : Bindings) (rest : List (Except Failure Bindings))
    (e : Failure) (h2 : joinResults rest = .error e) :
    joinResults (.ok b :: rest) = .error e := by
  simp [joinResults, h2]

/-- Permuting the per-slot results permutes the joined bindings and
preserves success/failure. -/
theorem joinResults_perm (rs rs2 : List (Except Failure Bindings)) (hp : rs.Perm rs2) :
    (∀ b, joinResults rs = .ok b → ∃ b2, joinResults rs2 = .ok b2 ∧ b.Perm b2)
    ∧ (∀ e, joinResults rs = .error e → joinResults rs2 = .error e) := by
  induction hp with
  | nil => exact ⟨fun b hb => ⟨b, hb, List.Perm.refl b⟩, fun e he => he⟩
  | cons x hp2 ih =>
      rename_i l1 l2
      constructor
      · intro b hb
        cases x with
        | error e =>
            rw [joinResults_cons_error l1 e] at hb
            exact absurd hb (by simp)
        | ok bx =>
            cases h2 : joinResults l1 with
            | error e =>
                rw [joinResults_cons_ok_error bx l1 e h2] at hb
                exact absurd hb (by simp)
            | ok b1 =>
                rw [joinResults_cons_ok bx l1 b1 h2] at hb
                obtain ⟨b2, hb2, hperm⟩ := ih.1 b1 h2
                refine ⟨bx ++ b2, joinResults_cons_ok bx l2 b2 hb2, ?_⟩
                have hbb : bx ++ b1 = b := by injection hb
                rw [← hbb]
                exact hperm.append_left bx
      · intro e he
        cases x with
        | error e2 =>
            rw [joinResults_cons_error l1 e2] at he
            rw [joinResults_cons_error l2 e2, he]
        | ok bx =>
            cases h2 : joinResults l1 with
            | error e2 =>
                rw [joinResults_cons_ok_error bx l1 e2 h2] at he
                rw [joinResults_cons_ok_error bx l2 e2 (ih.2 e2 h2), he]
            | ok b1 =>
                rw [joinResults_cons_ok bx l1 b1 h2] at he
                exact absurd he (by simp)
  | swap x y l =>
      have key : ∀ (u w : Except Failure Bindings),
          (∀ b, joinResults (u :: w :: l) = .ok b →
            ∃ b2, joinResults (w :: u :: l) = .ok b2 ∧ b.Perm b2)
          ∧ (∀ e, joinResults (u :: w :: l) = .error e →
              joinResults (w :: u :: l) = .error e) := by
        intro u w
        constructor
        · intro b hb
          cases u with
          | error e =>
              rw [joinResults_cons_error (w :: l) e] at hb
              exact absurd hb (by simp)
          | ok bu =>
              cases w with
              | error e =>
                  rw [joinResults_cons_ok_error bu (.error e :: l) e
                    (joinResults_cons_error l e)] at hb
                  exact absurd hb (by simp)
              | ok bw =>
                  cases h2 : joinResults l with
                  | error e =>
                      rw [joinResults_cons_ok_error bu (.ok bw :: l) e
                        (joinResults_cons_ok_error bw l e h2)] at hb
                      exact absurd hb (by simp)
                  | ok bl =>
                      rw [joinResults_cons_ok bu (.ok bw :: l) (bw ++ bl)
                        (joinResults_cons_ok bw l bl h2)] at hb
                      refine ⟨bw ++ (bu ++ bl), joinResults_cons_ok bw (.ok bu :: l)
                        (bu ++ bl) (joinResults_cons_ok bu l bl h2), ?_⟩
                      have hbb : bu ++ (bw ++ bl) = b := by injection hb
                      rw [← hbb, ← List.append_assoc, ← List.append_assoc]
                      exact List.perm_append_comm.append_right bl
        · intro e he
          cases u with
          | error eu =>
              rw [joinResults_cons_error (w :: l) eu] at he
              cases w with
              | error ew =>
                  rw [joinResults_cons_error (.error eu :: l) ew, failure_eq ew e]
              | ok bw =>
                  cases h2 : joinResults l with
                  | error el =>
                      rw [joinResults_cons_ok_error bw (.error eu :: l) el
                        (by rw [joinResults_cons_error l eu, failure_eq eu el]), ← he]
                  | ok bl =>
                      rw [joinResults_cons_ok_error bw (.error eu :: l) eu
                        (joinResults_cons_error l eu), ← he]
          | ok bu =>
              cases w with
              | error ew =>
                  rw [joinResults_cons_ok_error bu (.error ew :: l) ew
                    (joinResults_cons_error l ew)] at he
                  rw [joinResults_cons_error (.ok bu :: l) ew, he]
              | ok bw =>
                  cases h2 : joinResults l with
                  | error el =>
                      rw [joinResults_cons_ok_error bu (.ok bw :: l) el
                        (joinResults_cons_ok_error bw l el h2)] at he
                      rw [joinResults_cons_ok_error bw (.ok bu :: l) el
                        (joinResults_cons_ok_error bu l el h2), he]
                  | ok bl =>
                      rw [joinResults_cons_ok bu (.ok bw :: l) (bw ++ bl)
                        (joinResults_cons_ok bw l bl h2)] at he
                      exact absurd he (by simp)
      exact key y x
  | trans hp1 hp2 ih1 ih2 =>
      refine ⟨fun b hb => ?_, fun e he => ih2.2 e (ih1.2 e he)⟩
      obtain ⟨b2, h2, hpb⟩ := ih1.1 b hb
      obtain ⟨b3, h3, hpb3⟩ := ih2.1 b2 h2
      exact ⟨b3, h3, hpb.trans hpb3⟩

/-- With constant defaults, the keyed slot walk equals the independent
per-slot results joined in slot order. -/
theorem evalOSlots_joinResults (L : List (String × Pattern))
    (hc : ∀ q ∈ L, ∀ ex ∈ q.2.exprs, ∀ b1 b2 : Bindings, ex.fn b1 = ex.fn b2)
    (entries : List (String × Value)) (prior : Bindings) :
    (evalOSlots (OSlots.ofList L) entries prior).1
      = joinResults (L.map (slotResult entries)) := by
  induction L generalizing prior with
  | nil => rfl
  | cons q L2 ih =>
      obtain ⟨k, p⟩ := q
      have hcp : ∀ ex ∈ p.exprs, ∀ b1 b2 : Bindings, ex.fn b1 = ex.fn b2 :=
        hc (k, p) (by simp)
      have hcL2 : ∀ q ∈ L2, ∀ ex ∈ q.2.exprs, ∀ b1 b2 : Bindings, ex.fn b1 = ex.fn b2 :=
        fun q hq => hc q (by simp [hq])
      have hofl : OSlots.ofList ((k, p) :: L2) = .cons k p (OSlots.ofList L2) := rfl
      have hmap : ((k, p) :: L2).map (slotResult entries)
          = slotResult entries (k, p) :: L2.map (slotResult entries) := rfl
      have hp := const_indep_pat p hcp ((lookupKey entries k).getD .unset) prior []
      rw [hofl, hmap]
      cases h1 : (evaluate p ((lookupKey entries k).getD .unset) prior).1 with
      | error e =>
          have h1z : slotResult entries (k, p) = .error e := by
            show (evaluate p ((lookupKey entries k).getD .unset) []).1 = .error e
            rw [← hp]
            exact h1
          rw [evalOSlots_cons_err k p (OSlots.ofList L2) entries prior e h1, h1z,
            joinResults_cons_error]
      | ok b =>
          have h1z : slotResult entries (k, p) = .ok b := by
            show (evaluate p ((lookupKey entries k).getD .unset) []).1 = .ok b
            rw [← hp]
            exact h1
          have ihb := ih hcL2 (prior ++ b)
          cases h2 : (evalOSlots (OSlots.ofList L2) entries (prior ++ b)).1 with
          | error e =>
              have h2z : joinResults (L2.map (slotResult entries)) = .error e := by
                rw [← ihb]
                exact h2
              rw [evalOSlots_cons_ok_err k p (OSlots.ofList L2) entries prior b e h1 h2,
                h1z, joinResults_cons_ok_error b _ e h2z]
          | ok b2 =>
              have h2z : joinResults (L2.map (slotResult entries)) = .ok b2 := by
                rw [← ihb]
                exact h2
              rw [evalOSlots_cons_ok_ok k p (OSlots.ofList L2) entries prior b b2 h1 h2,
                h1z, joinResults_cons_ok b _ b2 h2z]

/-- The claimed keys of slots built from an association list are its keys. -/
theorem claimedKeys_ofList (L : List (String × Pattern)) :
    (OSlots.ofList L).claimedKeys = L.map Prod.fst := by
  induction L with
  | nil => rfl
  | cons q L2 ih =>
      obtain ⟨k, p⟩ := q
      simp [OSlots.ofList, OSlots.claimedKeys, ih]

/-- Permuting a key list does not change key containment. -/
theorem contains_eq_of_perm (l l2 : List String) (hp : l.Perm l2) (x : String) :
    l.contains x = l2.contains x := by
  by_cases hx : x ∈ l
  · have hx2 : x ∈ l2 := hp.mem_iff.1 hx
    simp [hx, hx2]
  · have hx2 : ¬ x ∈ l2 := fun h => hx (hp.mem_iff.2 h)
    simp [hx, hx2]

/-- C8: for a mapping and an object pattern whose slots have no
interdependent default expressions (each default ignores the environment),
evaluating the slots in any order yields the same binding content: a
permutation of the slots permutes the produced bindings (rest binding
unchanged) and preserves success and failure.  The prior environment is also
irrelevant, so only default-expression side-effect order can differ. -/
theorem object_slot_order_irrelevant (L L2 : List (String × Pattern)) (hperm : L.Perm L2)
    (hc : ∀ q ∈ L, ∀ ex ∈ q.2.exprs, ∀ b1 b2 : Bindings, ex.fn b1 = ex.fn b2)
    (entries : List (String × Value)) (rn : Option String) (prior prior2 : Bindings) :
    (∀ b, (evaluate (.objectPat (OSlots.ofList L) rn) (.map entries) prior).1 = .ok b →
        ∃ b2, (evaluate (.objectPat (OSlots.ofList L2) rn) (.map entries) prior2).1 = .ok b2
          ∧ b.Perm b2)
    ∧ (∀ e, (evaluate (.objectPat (OSlots.ofList L) rn) (.map entries) prior).1 = .error e →
        (evaluate (.objectPat (OSlots.ofList L2) rn) (.map entries) prior2).1 = .error e) := by
  have hc2 : ∀ q ∈ L2, ∀ ex ∈ q.2.exprs, ∀ b1 b2 : Bindings, ex.fn b1 = ex.fn b2 :=
    fun q hq => hc q (hperm.mem_iff.2 hq)
  have hJ := evalOSlots_joinResults L hc entries prior
  have hJ2 := evalOSlots_joinResults L2 hc2 entries prior2
  have hjp := joinResults_perm (L.map (slotResult entries)) (L2.map (slotResult entries))
    (hperm.map (slotResult entries))
  have hrest : restEntries entries (OSlots.ofList L).claimedKeys
      = restEntries entries (OSlots.ofList L2).claimedKeys := by
    rw [claimedKeys_ofList, claimedKeys_ofList]
    unfold restEntries
    apply List.filter_congr
    intro e he
    rw [contains_eq_of_perm (L.map Prod.fst) (L2.map Prod.fst) (hperm.map Prod.fst) e.1]
  cases rn with
  | none =>
      constructor
      · intro b hb
        rw [evaluate_objectPat_none, hJ] at hb
        obtain ⟨b2, h2, hpb⟩ := hjp.1 b hb
        exact ⟨b2, by rw [evaluate_objectPat_none, hJ2, h2], hpb⟩
      · intro e he
        rw [evaluate_objectPat_none, hJ] at he
        rw [evaluate_objectPat_none, hJ2]
        exact hjp.2 e he
  | some rname =>
      constructor
      · intro b hb
        cases h1 : (evalOSlots (OSlots.ofList L) entries prior).1 with
        | error e =>
            rw [evaluate_objectPat_some_err (OSlots.ofList L) rname entries prior e h1] at hb
            exact absurd hb (by simp)
        | ok b0 =>
            rw [evaluate_objectPat_some_ok (OSlots.ofList L) rname entries prior b0 h1] at hb
            have hbb : b0 ++ [(rname,
                Value.map (restEntries entries (OSlots.ofList L).claimedKeys))] = b := by
              injection hb
            rw [hJ] at h1
            obtain ⟨b02, h02, hp0⟩ := hjp.1 b0 h1
            have h02b : (evalOSlots (OSlots.ofList L2) entries prior2).1 = .ok b02 := by
              rw [hJ2]
              exact h02
            refine ⟨b02 ++ [(rname,
                Value.map (restEntries entries (OSlots.ofList L2).claimedKeys))],
              by rw [evaluate_objectPat_some_ok (OSlots.ofList L2) rname entries prior2
                b02 h02b], ?_⟩
            rw [← hbb, ← hrest]
            exact hp0.append_right _
      · intro e he
        cases h1 : (evalOSlots (OSlots.ofList L) entries prior).1 with
        | ok b0 =>
            rw [evaluate_objectPat_some_ok (OSlots.ofList L) rname entries prior b0 h1] at he
            exact absurd he (by simp)
        | error e2 =>
            rw [evaluate_objectPat_some_err (OSlots.ofList L) rname entries prior e2 h1] at he
            rw [hJ] at h1
            have h2 := hjp.2 e2 h1
            have h2b : (evalOSlots (OSlots.ofList L2) entries prior2).1 = .error e2 := by
              rw [hJ2]
              exact h2
            rw [evaluate_objectPat_some_err (OSlots.ofList L2) rname entries prior2 e2 h2b]

/-- Witness for C8, at the repository's order-does-not-matter example:
`{ name, age }` and `{ age, name }` against the same user mapping succeed
with the same binding content, merely listed in slot order. -/
theorem object_slot_order_irrelevant_witness :
    ∃ b2, (evaluate (.objectPat (OSlots.ofList
        [("age", Pattern.binding "age"), ("name", Pattern.binding "name")]) none)
      (.map [("name", .scalar (.str "Yash")), ("age", .scalar (.num 21))]) []).1 = .ok b2
      ∧ ([("name", Value.scalar (.str "Yash")),
          ("age", Value.scalar (.num 21))] : Bindings).Perm b2 := by
  refine (object_slot_order_irrelevant
    [("name", Pattern.binding "name"), ("age", Pattern.binding "age")]
    [("age", Pattern.binding "age"), ("name", Pattern.binding "name")]
    (List.Perm.swap ("age", Pattern.binding "age") ("name", Pattern.binding "name") [])
    ?_ [("name", Value.scalar (.str "Yash")), ("age", Value.scalar (.num 21))] none [] []).1
    [("name", Value.scalar (.str "Yash")), ("age", Value.scalar (.num 21))] rfl
  intro q hq ex hex
  rcases List.mem_cons.1 hq with rfl | hq2
  · exact absurd hex (by simp [Pattern.exprs])
  rcases List.mem_cons.1 hq2 with rfl | hq3
  · exact absurd hex (by simp [Pattern.exprs])
  · exact absurd hq3 (by simp)

/-! ## Claim C10 -/

/-- With unique keys, lookup finds exactly the stored entry. -/
theorem lookupKey_of_mem (entries : List (String × Value))
    (hnd : (entries.map Prod.fst).Nodup) (k : String) (v : Value)
    (hm : (k, v) ∈ entries) : lookupKey entries k = some v := by
  induction entries with
  | nil => simp at hm
  | cons e rest ih =>
      obtain ⟨ek, ev⟩ := e
      have hnd2 : (rest.map Prod.fst).Nodup := (List.nodup_cons.1 hnd).2
      rcases List.mem_cons.1 hm with heq | hm2
      · obtain ⟨rfl, rfl⟩ := Prod.mk.injEq .. ▸ heq.symm
        simp [lookupKey]
      · have hk : ek ≠ k := by
          intro h
          exact (List.nodup_cons.1 hnd).1
            (h ▸ List.mem_map.2 ⟨(k, v), hm2, rfl⟩)
        show (if ek = k then some ev else lookupKey rest k) = some v
        rw [if_neg hk]
        exact ih hnd2 hm2

/-- C10: evaluation treats the input value as read-only.  A rest slot binds a
freshly built container: the object rest mapping is a sublist of the intact
input entry list, and the array rest sequence together with the consumed
prefix reassembles the input exactly (`take ++ rest = input`), so nothing is
removed or reordered.  Moreover the same mapping can be destructured again
afterwards: each original entry is still found, with its original value. -/
theorem input_value_preserved :
    (∀ (s : OSlots) (rn : String) (entries : List (String × Value)) (prior b : Bindings),
        (evaluate (.objectPat s (some rn)) (.map entries) prior).1 = .ok b →
        ∃ restE, (rn, Value.map restE) ∈ b ∧ restE.Sublist entries)
    ∧ (∀ (s : Slots) (rn : String) (xs : List Value) (prior b : Bindings),
        (evaluate (.arrayPat s (some rn)) (.seq xs) prior).1 = .ok b →
        ∃ restXs, (rn, Value.seq restXs) ∈ b ∧ restXs.Sublist xs
          ∧ xs.take s.length ++ restXs = xs)
    ∧ (∀ (entries : List (String × Value)), (entries.map Prod.fst).Nodup →
        ∀ (k : String) (v : Value) (n : String) (prior : Bindings), (k, v) ∈ entries →
        evaluate (.objectPat (.cons k (.binding n) .nil) none) (.map entries) prior
          = (.ok [(n, v)], [])) := by
  refine ⟨?_, ?_, ?_⟩
  · intro s rn entries prior b hb
    cases h1 : (evalOSlots s entries prior).1 with
    | error e =>
        rw [evaluate_objectPat_some_err s rn entries prior e h1] at hb
        exact absurd hb (by simp)
    | ok b0 =>
        rw [evaluate_objectPat_some_ok s rn entries prior b0 h1] at hb
        have hbb : b0 ++ [(rn, Value.map (restEntries entries s.claimedKeys))] = b := by
          injection hb
        exact ⟨restEntries entries s.claimedKeys, by rw [← hbb]; simp,
          List.filter_sublist entries⟩
  · intro s rn xs prior b hb
    cases h1 : (evalSlots s xs prior).1 with
    | error e =>
        rw [evaluate_arrayPat_some_err s rn xs prior e h1] at hb
        exact absurd hb (by simp)
    | ok b0 =>
        rw [evaluate_arrayPat_some_ok s rn xs prior b0 h1] at hb
        have hbb : b0 ++ [(rn, Value.seq (xs.drop s.length))] = b := by injection hb
        exact ⟨xs.drop s.length, by rw [← hbb]; simp, List.drop_sublist _ _,
          List.take_append_drop s.length xs⟩
  · intro entries hnd k v n prior hm
    rw [evaluate_objectPat_none, evalOSlots_single, lookupKey_of_mem entries hnd k v hm]
    rfl

/-- Witness for C10, at the repository's employee rest example: extracting
`{ id, ...publicProfile }` leaves the employee mapping intact — the rest
mapping is a sublist of the original entries — and the same employee mapping
can be destructured again afterwards, still finding `id = 101`. -/
theorem input_value_preserved_witness :
    (∃ restE, ("publicProfile", Value.map restE)
        ∈ [("id", Value.scalar (.num 101)),
           ("publicProfile", Value.map [("name", Value.scalar (.str "Ayesha")),
             ("role", Value.scalar (.str "Developer"))])]
      ∧ restE.Sublist [("id", Value.scalar (.num 101)),
          ("name", Value.scalar (.str "Ayesha")), ("role", Value.scalar (.str "Developer"))])
    ∧ evaluate (.objectPat (.cons "id" (.binding "empId") .nil) none)
        (.map [("id", .scalar (.num 101)), ("name", .scalar (.str "Ayesha")),
          ("role", .scalar (.str "Developer"))]) []
      = (.ok [("empId", .scalar (.num 101))], []) := by
  constructor
  · exact input_value_preserved.1 (.cons "id" (.binding "id") .nil) "publicProfile"
      [("id", .scalar (.num 101)), ("name", .scalar (.str "Ayesha")),
        ("role", .scalar (.str "Developer"))] []
      [("id", .scalar (.num 101)),
        ("publicProfile", .map [("name", .scalar (.str "Ayesha")),
          ("role", .scalar (.str "Developer"))])] rfl
  · exact input_value_preserved.2.2
      [("id", .scalar (.num 101)), ("name", .scalar (.str "Ayesha")),
        ("role", .scalar (.str "Developer"))] (by decide)
      "id" (.scalar (.num 101)) "empId" [] (List.mem_cons_self _ _)

end PatternBind
